import Mathlib

/-!
Verification of the tree-tables core (src/app.rs): the column-schema and
row-tree data model, the bottom-up recompute pass `RowData::update`, and the
JSON persistence contract of `TreeTable`.

Numeric values (`f64` in the source) are modelled as `ℚ`; the claims under
study are about the dataflow of the engine, not floating-point rounding.
`HashMap<ColumnID, f64>` is modelled as an association list with
first-occurrence lookup and replace-in-place insert, which is the observable
behaviour of the hash map (a real `HashMap` additionally guarantees that keys
are not duplicated; where a proof needs that invariant it is an explicit
hypothesis).
-/

namespace TreeTables

/-- `use String as ColumnID;` in the source. -/
abbrev ColumnID := String

/-- Per-row column data: `col_data: HashMap<ColumnID, f64>` in the source. -/
abbrev ColData := List (ColumnID × ℚ)

/-- `enum ColumnType` from the source (`Number`, `Text`,
`MultiplyByFactor(ColumnID, f64)`, `RowSum(Vec<ColumnID>)`). -/
inductive ColumnType : Type where
  | Number : ColumnType
  | Text : ColumnType
  | MultiplyByFactor : ColumnID → ℚ → ColumnType
  | RowSum : List ColumnID → ColumnType
deriving DecidableEq

/-- `struct ColumnConfig` from the source. -/
structure ColumnConfig : Type where
  id : ColumnID
  caption : String
  unit : String
  col_type : ColumnType
deriving DecidableEq

/-- `struct RowData` from the source: name, col_data, children, enabled and
the two persisted UI flags, in declaration order. -/
inductive RowData : Type where
  | mk (name : String) (col_data : ColData) (children : List RowData)
      (enabled : Bool) (expanded : Bool) (edit_name : Bool) : RowData

def RowData.name : RowData → String
  | .mk n _ _ _ _ _ => n

def RowData.col_data : RowData → ColData
  | .mk _ cd _ _ _ _ => cd

def RowData.children : RowData → List RowData
  | .mk _ _ ch _ _ _ => ch

def RowData.enabled : RowData → Bool
  | .mk _ _ _ en _ _ => en

def RowData.expanded : RowData → Bool
  | .mk _ _ _ _ ex _ => ex

def RowData.edit_name : RowData → Bool
  | .mk _ _ _ _ _ ed => ed

/-- First-occurrence association-list lookup (`HashMap::get`). -/
def alookup {α : Type} : List (String × α) → String → Option α
  | [], _ => none
  | (k', v) :: t, k => if k' = k then some v else alookup t k

/-- `child.col_data.get(col_id).unwrap_or(&0.0)`: a missing key reads as 0. -/
def lookupD (m : ColData) (k : ColumnID) : ℚ :=
  (alookup m k).getD 0

/-- `HashMap::insert`: replace the value of an existing key in place,
otherwise add the binding. -/
def insertA : ColData → ColumnID → ℚ → ColData
  | [], k, v => [(k, v)]
  | (k', v') :: t, k, v => if k' = k then (k, v) :: t else (k', v') :: insertA t k v

/-- One iteration of the inner `for child in self.children.iter_mut()` loop of
`RowData::update`, for one column: returns the updated child together with the
updated running `sum`, or `none` where the source panics (`RowSum` is
`todo!()`). -/
def stepChild (ct : ColumnType) (colId : ColumnID) (child : RowData) (acc : ℚ) :
    Option (RowData × ℚ) :=
  match ct with
  | ColumnType.Number =>
      some (child, if child.enabled then acc + lookupD child.col_data colId else acc)
  | ColumnType.Text => some (child, acc)
  | ColumnType.MultiplyByFactor input_col_id factor =>
      let value := lookupD child.col_data input_col_id * factor
      some (RowData.mk child.name (insertA child.col_data colId value) child.children
              child.enabled child.expanded child.edit_name,
            if child.enabled then acc + value else acc)
  | ColumnType.RowSum _ => none

/-- The inner child loop of `RowData::update` for one column over the whole
children list, threading the running `sum`. -/
def colPass (cfg : ColumnConfig) : List RowData → ℚ → Option (List RowData × ℚ)
  | [], acc => some ([], acc)
  | c :: cs, acc =>
    match stepChild cfg.col_type cfg.id c acc with
    | none => none
    | some (c1, acc1) =>
      match colPass cfg cs acc1 with
      | none => none
      | some (cs1, acc2) => some (c1 :: cs1, acc2)

/-- The outer `for col_cfg in column_configs.iter()` loop of `RowData::update`:
for each column, if the row has children, run the child loop from `sum = 0.0`
and store the sum under the column's id. -/
def updateCols : RowData → List ColumnConfig → Option RowData
  | r, [] => some r
  | r, cfg :: rest =>
    if r.children.isEmpty then updateCols r rest
    else
      match colPass cfg r.children 0 with
      | none => none
      | some (ch1, sum) =>
        updateCols
          (RowData.mk r.name (insertA r.col_data cfg.id sum) ch1
            r.enabled r.expanded r.edit_name) rest

mutual

/-- `RowData::update`: recurse into every child first, then run the column
loop. `none` models the `todo!()` panic on `RowSum`. -/
def update : RowData → List ColumnConfig → Option RowData
  | RowData.mk n cd ch en ex ed, cfgs =>
    match updateEach ch cfgs with
    | none => none
    | some ch1 => updateCols (RowData.mk n cd ch1 en ex ed) cfgs

/-- The `for child in self.children.iter_mut() { child.update(...) }` loop. -/
def updateEach : List RowData → List ColumnConfig → Option (List RowData)
  | [], _ => some []
  | c :: cs, cfgs =>
    match update c cfgs with
    | none => none
    | some c1 =>
      match updateEach cs cfgs with
      | none => none
      | some cs1 => some (c1 :: cs1)

end

/-! ### Pure mirror of the pass

`update` models the source faithfully, including the `RowSum` panic as
`none`.  For reasoning it is convenient to have a total mirror of the
successful path; the agreement lemmas below prove the two coincide whenever
the pass does not hit `RowSum`. -/

/-- Whether a column type is `MultiplyByFactor`. -/
def isMulti : ColumnType → Bool
  | ColumnType.MultiplyByFactor _ _ => true
  | _ => false

/-- Whether a column type is `RowSum`. -/
def isRS : ColumnType → Bool
  | ColumnType.RowSum _ => true
  | _ => false

/-- Whether the schema contains a `RowSum` column. -/
def hasRowSum (cfgs : List ColumnConfig) : Bool :=
  cfgs.any (fun c => isRS c.col_type)

/-- Ids of the `MultiplyByFactor` columns of a schema. -/
def mbfIds (cfgs : List ColumnConfig) : List ColumnID :=
  (cfgs.filter (fun c => isMulti c.col_type)).map (fun c => c.id)

/-- The contribution one child adds to the parent's running `sum` for one
column (0 when the child is disabled or the column does not aggregate). -/
def childContrib (ct : ColumnType) (colId : ColumnID) (c : RowData) : ℚ :=
  match ct with
  | ColumnType.Number => if c.enabled then lookupD c.col_data colId else 0
  | ColumnType.Text => 0
  | ColumnType.MultiplyByFactor input_col_id factor =>
      if c.enabled then lookupD c.col_data input_col_id * factor else 0
  | ColumnType.RowSum _ => 0

/-- The in-place mutation one column applies to one child: only
`MultiplyByFactor` writes the scaled value back onto the child. -/
def childWrite (ct : ColumnType) (colId : ColumnID) (c : RowData) : RowData :=
  match ct with
  | ColumnType.MultiplyByFactor input_col_id factor =>
      RowData.mk c.name
        (insertA c.col_data colId (lookupD c.col_data input_col_id * factor))
        c.children c.enabled c.expanded c.edit_name
  | _ => c

/-- The `sum` a column's child loop produces over a children list. -/
def colSum (cfg : ColumnConfig) (ch : List RowData) : ℚ :=
  (ch.map (childContrib cfg.col_type cfg.id)).sum

/-- Pure mirror of one iteration of the column loop on a row. -/
def applyCol (cfg : ColumnConfig) (r : RowData) : RowData :=
  if r.children.isEmpty then r
  else
    RowData.mk r.name (insertA r.col_data cfg.id (colSum cfg r.children))
      (r.children.map (childWrite cfg.col_type cfg.id))
      r.enabled r.expanded r.edit_name

/-- Pure mirror of the whole column loop. -/
def applyCols : RowData → List ColumnConfig → RowData
  | r, [] => r
  | r, cfg :: rest => applyCols (applyCol cfg r) rest

mutual

/-- Pure mirror of `RowData::update` (total; `RowSum` contributes 0 and
writes nothing, a path on which `update` instead fails). -/
def applyUpdate : RowData → List ColumnConfig → RowData
  | RowData.mk n cd ch en ex ed, cfgs =>
    applyCols (RowData.mk n cd (applyEach ch cfgs) en ex ed) cfgs

/-- Pure mirror of the recursion into the children. -/
def applyEach : List RowData → List ColumnConfig → List RowData
  | [], _ => []
  | c :: cs, cfgs => applyUpdate c cfgs :: applyEach cs cfgs

end

/-- Cumulative effect on one child of the writes of all columns of a schema,
in schema order. -/
def writeAll : List ColumnConfig → RowData → RowData
  | [], c => c
  | cfg :: rest, c => writeAll rest (childWrite cfg.col_type cfg.id c)

/-- Cumulative effect of the column loop on the parent's own `col_data`,
with every column's sum taken over the same children list `ch`. -/
def foldInserts : List ColumnConfig → List RowData → ColData → ColData
  | [], _, m => m
  | cfg :: rest, ch, m => foldInserts rest ch (insertA m cfg.id (colSum cfg ch))

/-! ### Tree observers and well-formedness -/

mutual

/-- Every node of a tree, root first. -/
def allNodes : RowData → List RowData
  | RowData.mk n cd ch en ex ed => RowData.mk n cd ch en ex ed :: allNodesEach ch

/-- All nodes of a forest. -/
def allNodesEach : List RowData → List RowData
  | [] => []
  | c :: cs => allNodes c ++ allNodesEach cs

end

mutual

/-- The leaf rows (rows with no children) of a tree. -/
def leaves : RowData → List RowData
  | RowData.mk n cd [] en ex ed => [RowData.mk n cd [] en ex ed]
  | RowData.mk _ _ (c :: cs) _ _ _ => leavesEach (c :: cs)

/-- The leaf rows of a forest. -/
def leavesEach : List RowData → List RowData
  | [] => []
  | c :: cs => leaves c ++ leavesEach cs

end

mutual

/-- Every node's `col_data` has pairwise distinct keys — the invariant the
source's `HashMap` enforces by construction. -/
def nodupKeys : RowData → Prop
  | RowData.mk _ cd ch _ _ _ => (cd.map Prod.fst).Nodup ∧ nodupKeysEach ch

/-- `nodupKeys` over a forest. -/
def nodupKeysEach : List RowData → Prop
  | [] => True
  | c :: cs => nodupKeys c ∧ nodupKeysEach cs

end

/-- A well-formed schema: column ids are pairwise distinct (the source
generates them as fresh UUIDs), and no `MultiplyByFactor` column uses a
`MultiplyByFactor` column (itself included) as its source, so the value a
scaled column reads is never rewritten later in the same pass. -/
def goodCfgs (cfgs : List ColumnConfig) : Prop :=
  (cfgs.map (fun c => c.id)).Nodup ∧
    ∀ cfg ∈ cfgs, ∀ src f, cfg.col_type = ColumnType.MultiplyByFactor src f →
      src ∉ mbfIds cfgs

/-- Two rows that are either equal, or are both disabled leaves differing
only in their stored `col_data`.  Used to state that the pass's result on a
parent is independent of what its disabled leaf children store. -/
def DisabledLeafVary (c c' : RowData) : Prop :=
  c = c' ∨
    (c.enabled = false ∧ c'.enabled = false ∧ c.children = [] ∧ c'.children = [] ∧
      c.name = c'.name ∧ c.expanded = c'.expanded ∧ c.edit_name = c'.edit_name)

/-! ### Persistence

`TreeTable` is saved with `serde_json::to_string` and loaded with
`serde_json::from_str`.  The JSON value tree is modelled directly (numbers as
`ℚ`, matching the `f64` model).  Serialization follows serde's derive: structs
become objects with the fields in declaration order, the `ColumnType` enum is
externally tagged, and `HashMap` becomes an object.  Deserialization visits
the fields of an object in order, ignores unknown fields, and — only for
`RowData` and `ColumnConfig`, which carry `#[serde(default)]` — substitutes
the `Default` impl's value for each absent field.  `TreeTable` has no
`#[serde(default)]`, so its three fields are required.  `Uuid::new_v4()`
(the default for a missing `ColumnConfig` id) is nondeterministic and is
modelled as an explicit `freshId` parameter. -/

inductive Json : Type where
  | null : Json
  | bool : Bool → Json
  | num : ℚ → Json
  | str : String → Json
  | arr : List Json → Json
  | obj : List (String × Json) → Json

/-- Externally tagged serde representation of `ColumnType`. -/
def ColumnType.toJson : ColumnType → Json
  | ColumnType.Number => Json.str "Number"
  | ColumnType.Text => Json.str "Text"
  | ColumnType.MultiplyByFactor src f =>
      Json.obj [("MultiplyByFactor", Json.arr [Json.str src, Json.num f])]
  | ColumnType.RowSum ids =>
      Json.obj [("RowSum", Json.arr (ids.map Json.str))]

/-- Parse a list of JSON strings (the `RowSum` payload). -/
def idsFromList : List Json → Option (List ColumnID)
  | [] => some []
  | Json.str s :: rest =>
    match idsFromList rest with
    | none => none
    | some l => some (s :: l)
  | _ => none

/-- Parse the externally tagged representation of `ColumnType`. -/
def colTypeFromJson : Json → Option ColumnType
  | Json.str s =>
      if s = "Number" then some ColumnType.Number
      else if s = "Text" then some ColumnType.Text
      else none
  | Json.obj [(tag, payload)] =>
      if tag = "MultiplyByFactor" then
        match payload with
        | Json.arr [Json.str src, Json.num f] =>
          some (ColumnType.MultiplyByFactor src f)
        | _ => none
      else if tag = "RowSum" then
        match payload with
        | Json.arr xs =>
          match idsFromList xs with
          | none => none
          | some ids => some (ColumnType.RowSum ids)
        | _ => none
      else none
  | _ => none

/-- Serde representation of `ColumnConfig` (fields in declaration order). -/
def ColumnConfig.toJson (cfg : ColumnConfig) : Json :=
  Json.obj [("id", Json.str cfg.id), ("caption", Json.str cfg.caption),
    ("unit", Json.str cfg.unit), ("col_type", ColumnType.toJson cfg.col_type)]

/-- Parse a `ColumnConfig`; `#[serde(default)]` supplies the `Default` impl's
field values (a fresh UUID for `id`, empty caption, unit `€`, `Number`) for
absent fields. -/
def ColumnConfig.fromJson (freshId : ColumnID) : Json → Option ColumnConfig
  | Json.obj fields =>
    (match alookup fields "id" with
      | none => some freshId
      | some (Json.str s) => some s
      | some _ => none).bind (fun i =>
    (match alookup fields "caption" with
      | none => some ""
      | some (Json.str s) => some s
      | some _ => none).bind (fun cap =>
    (match alookup fields "unit" with
      | none => some "€"
      | some (Json.str s) => some s
      | some _ => none).bind (fun u =>
    (match alookup fields "col_type" with
      | none => some ColumnType.Number
      | some j => colTypeFromJson j).bind (fun ct =>
    some (ColumnConfig.mk i cap u ct)))))
  | _ => none

/-- Parse a list of `ColumnConfig`s. -/
def cfgsFromList (freshId : ColumnID) : List Json → Option (List ColumnConfig)
  | [] => some []
  | j :: rest =>
    match ColumnConfig.fromJson freshId j with
    | none => none
    | some cfg =>
      match cfgsFromList freshId rest with
      | none => none
      | some l => some (cfg :: l)

/-- Serde representation of `col_data` (a `HashMap<ColumnID, f64>`):
an object field per entry. -/
def colDataToJson (m : ColData) : List (String × Json) :=
  m.map (fun p => (p.1, Json.num p.2))

/-- Parse the entries of a `col_data` object. -/
def colDataFromJson : List (String × Json) → Option ColData
  | [] => some []
  | (k, Json.num q) :: rest =>
    match colDataFromJson rest with
    | none => none
    | some m => some ((k, q) :: m)
  | _ => none

/-- Expect a JSON string. -/
def jStr : Json → Option String
  | Json.str s => some s
  | _ => none

/-- Expect a JSON boolean. -/
def jBool : Json → Option Bool
  | Json.bool b => some b
  | _ => none

/-- Expect a JSON object holding `col_data` entries. -/
def jColData : Json → Option ColData
  | Json.obj fs => colDataFromJson fs
  | _ => none

mutual

/-- Serde representation of `RowData` (all six fields are serialized, in
declaration order). -/
def rowToJson : RowData → Json
  | RowData.mk n cd ch en ex ed =>
    Json.obj [("name", Json.str n), ("col_data", Json.obj (colDataToJson cd)),
      ("children", Json.arr (rowsToJson ch)), ("enabled", Json.bool en),
      ("expanded", Json.bool ex), ("edit_name", Json.bool ed)]

/-- Serialize a forest. -/
def rowsToJson : List RowData → List Json
  | [] => []
  | c :: cs => rowToJson c :: rowsToJson cs

end

mutual

/-- Parse a `RowData` from a JSON object. -/
def rowFromJson : Json → Option RowData
  | Json.obj fields => rowFromFields fields none none none none none none
  | _ => none

/-- Visit the fields of a `RowData` object in order, accumulating recognized
fields, ignoring unknown ones; at the end `#[serde(default)]` fills each
absent field from the `Default` impl (`""`, empty map, no children,
`enabled = true`, `expanded = true`, `edit_name = false`). -/
def rowFromFields : List (String × Json) → Option String → Option ColData →
    Option (List RowData) → Option Bool → Option Bool → Option Bool →
    Option RowData
  | [], n, cd, ch, en, ex, ed =>
    some (RowData.mk (n.getD "") (cd.getD []) (ch.getD []) (en.getD true)
      (ex.getD true) (ed.getD false))
  | (k, v) :: rest, n, cd, ch, en, ex, ed =>
    if k = "name" then
      match jStr v with
      | none => none
      | some s => rowFromFields rest (some s) cd ch en ex ed
    else if k = "col_data" then
      match jColData v with
      | none => none
      | some m => rowFromFields rest n (some m) ch en ex ed
    else if k = "children" then
      match rowsFromJson v with
      | none => none
      | some cs => rowFromFields rest n cd (some cs) en ex ed
    else if k = "enabled" then
      match jBool v with
      | none => none
      | some b => rowFromFields rest n cd ch (some b) ex ed
    else if k = "expanded" then
      match jBool v with
      | none => none
      | some b => rowFromFields rest n cd ch en (some b) ed
    else if k = "edit_name" then
      match jBool v with
      | none => none
      | some b => rowFromFields rest n cd ch en ex (some b)
    else rowFromFields rest n cd ch en ex ed

/-- Parse the `children` value (must be an array). -/
def rowsFromJson : Json → Option (List RowData)
  | Json.arr xs => rowsFromList xs
  | _ => none

/-- Parse a forest from a list of JSON values. -/
def rowsFromList : List Json → Option (List RowData)
  | [] => some []
  | x :: xs =>
    match rowFromJson x with
    | none => none
    | some c =>
      match rowsFromList xs with
      | none => none
      | some cs => some (c :: cs)

end

/-- `struct TreeTable` from the source: the persisted document. -/
structure TreeTable : Type where
  title_text : String
  column_configs : List ColumnConfig
  root_row : RowData

/-- Serde representation of `TreeTable` (what `save_to_file` writes). -/
def TreeTable.toJson (t : TreeTable) : Json :=
  Json.obj [("title_text", Json.str t.title_text),
    ("column_configs", Json.arr (t.column_configs.map ColumnConfig.toJson)),
    ("root_row", rowToJson t.root_row)]

/-- Parse a `TreeTable` (what "Open" does).  `TreeTable` does not carry
`#[serde(default)]`, so all three fields are required: any absent field is a
deserialization error. -/
def TreeTable.fromJson (freshId : ColumnID) : Json → Option TreeTable
  | Json.obj fields =>
    match alookup fields "title_text", alookup fields "column_configs",
        alookup fields "root_row" with
    | some (Json.str t), some (Json.arr cfgJs), some rj =>
      match cfgsFromList freshId cfgJs, rowFromJson rj with
      | some cfgs, some root => some (TreeTable.mk t cfgs root)
      | _, _ => none
    | _, _, _ => none
  | _ => none

/-! ### Concrete instances used in counterexamples and witnesses -/

/-- A schema with a single scaled column whose source is a plain column. -/
def exScaleCfgs : List ColumnConfig :=
  [ColumnConfig.mk "p" "" "" (ColumnType.MultiplyByFactor "s" 2)]

/-- A childless root carrying a stale stored value for the scaled column. -/
def exScaleRoot : RowData :=
  RowData.mk "r" [("s", 1), ("p", 5)] [] true false false

/-- A schema whose scaled column uses itself as source. -/
def exSelfCfgs : List ColumnConfig :=
  [ColumnConfig.mk "a" "" "" (ColumnType.MultiplyByFactor "a" 2)]

/-- A parent with one enabled leaf child with `a = 1`. -/
def exSelfRoot : RowData :=
  RowData.mk "p" [] [RowData.mk "c" [("a", 1)] [] true false false] true false false

/-- A document payload with no `column_configs` field. -/
def exNoCfgsJson : Json :=
  Json.obj [("title_text", Json.str "T"), ("root_row", Json.obj [])]

/-- A row payload with no `enabled` field. -/
def exNoEnabledJson : Json :=
  Json.obj [("name", Json.str "x")]

/-- A schema with a single `Text` column. -/
def exTextCfgs : List ColumnConfig :=
  [ColumnConfig.mk "t" "" "" ColumnType.Text]

/-- A parent (with one child) that stores nothing under the `Text` column. -/
def exTextRoot : RowData :=
  RowData.mk "r" [] [RowData.mk "c" [] [] true false false] true false false

/-- The recompute result on `exTextRoot`: an entry `t = 0` appears. -/
def exTextOut : RowData :=
  RowData.mk "r" [("t", 0)] [RowData.mk "c" [] [] true false false] true false false

/-- A schema scaling column `a` into column `b`. -/
def exScalebCfgs : List ColumnConfig :=
  [ColumnConfig.mk "b" "" "" (ColumnType.MultiplyByFactor "a" 2)]

/-- A parent whose only child is disabled and stores a stale `b` value. -/
def exDisabledRoot : RowData :=
  RowData.mk "r" [] [RowData.mk "c" [("a", 1), ("b", 99)] [] false false false]
    true false false

/-- A schema with a single plain `Number` column `a`. -/
def exNumCfgs : List ColumnConfig :=
  [ColumnConfig.mk "a" "" "" ColumnType.Number]

/-- A parent with an enabled child (`a = 3`) and a disabled child (`a = 5`). -/
def exNumRoot : RowData :=
  RowData.mk "r" []
    [RowData.mk "c1" [("a", 3)] [] true false false,
      RowData.mk "c2" [("a", 5)] [] false false false] true false false

/-- The recompute result on `exNumRoot`: the parent stores `a = 3`. -/
def exNumOut : RowData :=
  RowData.mk "r" [("a", 3)]
    [RowData.mk "c1" [("a", 3)] [] true false false,
      RowData.mk "c2" [("a", 5)] [] false false false] true false false

/-- The spec's concrete scenario: a plain column `s` and `p = 100 × s`. -/
def exSpecCfgs : List ColumnConfig :=
  [ColumnConfig.mk "s" "" "" ColumnType.Number,
    ColumnConfig.mk "p" "" "" (ColumnType.MultiplyByFactor "s" 100)]

/-- Root with a single leaf child with `s = 1`. -/
def exSpecRoot : RowData :=
  RowData.mk "r" [] [RowData.mk "A" [("s", 1)] [] true false false] true false false

/-- The recompute result on `exSpecRoot`. -/
def exSpecOut : RowData :=
  RowData.mk "r" [("s", 1), ("p", 100)]
    [RowData.mk "A" [("s", 1), ("p", 100)] [] true false false] true false false

/-- A childless root (with a stored value) and a schema containing `RowSum`. -/
def exLeafRoot : RowData :=
  RowData.mk "L" [("x", 7)] [] true false false

/-- A schema containing the unimplemented `RowSum` kind. -/
def exRowSumCfgs : List ColumnConfig :=
  [ColumnConfig.mk "q" "" "" (ColumnType.RowSum ["x"])]

/-- A disabled leaf child storing `a = 1`. -/
def exDisChA : List RowData :=
  [RowData.mk "d" [("a", 1)] [] false false false]

/-- The same disabled leaf child with different stored data. -/
def exDisChB : List RowData :=
  [RowData.mk "d" [("a", 7)] [] false false false]

/-! ## Theorems -/

@[simp] theorem RowData.name_mk (n cd ch en ex ed) :
    (RowData.mk n cd ch en ex ed).name = n := rfl

@[simp] theorem RowData.col_data_mk (n cd ch en ex ed) :
    (RowData.mk n cd ch en ex ed).col_data = cd := rfl

@[simp] theorem RowData.children_mk (n cd ch en ex ed) :
    (RowData.mk n cd ch en ex ed).children = ch := rfl

@[simp] theorem RowData.enabled_mk (n cd ch en ex ed) :
    (RowData.mk n cd ch en ex ed).enabled = en := rfl

@[simp] theorem RowData.expanded_mk (n cd ch en ex ed) :
    (RowData.mk n cd ch en ex ed).expanded = ex := rfl

@[simp] theorem RowData.edit_name_mk (n cd ch en ex ed) :
    (RowData.mk n cd ch en ex ed).edit_name = ed := rfl

/-- Rebuilding a row from its projections gives the row back. -/
theorem RowData.eta (r : RowData) :
    RowData.mk r.name r.col_data r.children r.enabled r.expanded r.edit_name = r := by
  cases r with
  | mk n cd ch en ex ed => rfl

/-- Structural induction for the nested `RowData` tree. -/
theorem RowData.inductionOn (P : RowData → Prop)
    (h : ∀ n cd ch en ex ed, (∀ c ∈ ch, P c) → P (RowData.mk n cd ch en ex ed)) :
    ∀ r, P r := by
  have key : ∀ (k : Nat) (r : RowData), sizeOf r ≤ k → P r := by
    intro k
    induction k with
    | zero =>
      intro r hr
      cases r with
      | mk n cd ch en ex ed => simp at hr
    | succ k ih =>
      intro r hr
      cases r with
      | mk n cd ch en ex ed =>
        apply h
        intro c hc
        apply ih
        have h1 : sizeOf c < sizeOf ch := List.sizeOf_lt_of_mem hc
        have h2 : sizeOf (RowData.mk n cd ch en ex ed) =
            1 + sizeOf n + sizeOf cd + sizeOf ch + sizeOf en + sizeOf ex + sizeOf ed := by
          simp
        omega
  intro r
  exact key (sizeOf r) r le_rfl

/-! ### Association-list lemmas -/

@[simp] theorem alookup_nil {α : Type} (k : String) :
    alookup ([] : List (String × α)) k = none := rfl

theorem alookup_cons {α : Type} (k' : String) (v : α) (t : List (String × α)) (k : String) :
    alookup ((k', v) :: t) k = if k' = k then some v else alookup t k := rfl

theorem alookup_insertA (m : ColData) (k : ColumnID) (v : ℚ) (k2 : ColumnID) :
    alookup (insertA m k v) k2 = if k = k2 then some v else alookup m k2 := by
  induction m with
  | nil => by_cases h : k = k2 <;> simp [insertA, alookup_cons, h]
  | cons p t ih =>
    obtain ⟨k', v'⟩ := p
    by_cases h : k' = k
    · subst h
      by_cases h2 : k' = k2 <;> simp [insertA, alookup_cons, h2]
    · by_cases h2 : k' = k2
      · subst h2
        have hne : ¬ k = k' := fun hh => h hh.symm
        simp [insertA, h, alookup_cons, hne]
      · simp [insertA, h, alookup_cons, h2, ih]

theorem lookupD_insertA (m : ColData) (k : ColumnID) (v : ℚ) (k2 : ColumnID) :
    lookupD (insertA m k v) k2 = if k = k2 then v else lookupD m k2 := by
  unfold lookupD
  rw [alookup_insertA]
  by_cases h : k = k2 <;> simp [h]

theorem alookup_eq_none {α : Type} (m : List (String × α)) (k : String) :
    alookup m k = none ↔ k ∉ m.map Prod.fst := by
  induction m with
  | nil => simp
  | cons p t ih =>
    obtain ⟨k', v'⟩ := p
    rw [alookup_cons]
    by_cases h : k' = k
    · subst h
      simp
    · rw [if_neg h, ih]
      simp only [List.map_cons, List.mem_cons]
      constructor
      · intro hn hmem
        rcases hmem with hmem | hmem
        · exact h hmem.symm
        · exact hn hmem
      · intro hn hmem
        exact hn (Or.inr hmem)

theorem alookup_isSome_iff {α : Type} (m : List (String × α)) (k : String) :
    (alookup m k).isSome = true ↔ k ∈ m.map Prod.fst := by
  cases hcase : alookup m k with
  | none =>
    have := (alookup_eq_none m k).mp hcase
    simp [this]
  | some v =>
    have hne : ¬ alookup m k = none := by rw [hcase]; simp
    have hk : k ∈ m.map Prod.fst := by
      by_contra hmem
      exact hne ((alookup_eq_none m k).mpr hmem)
    simp [hk]

theorem insertA_keys_of_mem (m : ColData) (k : ColumnID) (v : ℚ)
    (h : k ∈ m.map Prod.fst) :
    (insertA m k v).map Prod.fst = m.map Prod.fst := by
  induction m with
  | nil => simp at h
  | cons p t ih =>
    obtain ⟨k', v'⟩ := p
    by_cases hk : k' = k
    · subst hk
      simp [insertA]
    · simp only [List.map_cons, List.mem_cons] at h
      rcases h with h | h
      · exact absurd h.symm hk
      · simp [insertA, hk, ih h]

theorem insertA_keys_of_not_mem (m : ColData) (k : ColumnID) (v : ℚ)
    (h : k ∉ m.map Prod.fst) :
    (insertA m k v).map Prod.fst = m.map Prod.fst ++ [k] := by
  induction m with
  | nil => simp [insertA]
  | cons p t ih =>
    obtain ⟨k', v'⟩ := p
    simp only [List.map_cons, List.mem_cons] at h
    push_neg at h
    have hk : ¬ k' = k := fun hh => h.1 hh.symm
    simp [insertA, hk, ih h.2]

theorem insertA_nodup (m : ColData) (k : ColumnID) (v : ℚ)
    (h : (m.map Prod.fst).Nodup) :
    ((insertA m k v).map Prod.fst).Nodup := by
  by_cases hk : k ∈ m.map Prod.fst
  · rw [insertA_keys_of_mem m k v hk]; exact h
  · rw [insertA_keys_of_not_mem m k v hk]
    simp [List.nodup_append, h, hk]

theorem insertA_same (m : ColData) (k : ColumnID) (v : ℚ)
    (h : alookup m k = some v) : insertA m k v = m := by
  induction m with
  | nil => simp at h
  | cons p t ih =>
    obtain ⟨k', v'⟩ := p
    by_cases hk : k' = k
    · subst hk
      rw [alookup_cons] at h
      simp at h
      simp [insertA, h]
    · rw [alookup_cons, if_neg hk] at h
      simp [insertA, hk, ih h]

/-- Two col-data lists with the same (duplicate-free) key sequence and the
same lookups are equal. -/
theorem alookup_ext : ∀ (m1 m2 : ColData),
    m1.map Prod.fst = m2.map Prod.fst → (m1.map Prod.fst).Nodup →
    (∀ k, alookup m1 k = alookup m2 k) → m1 = m2 := by
  intro m1
  induction m1 with
  | nil =>
    intro m2 hkeys _ _
    cases m2 with
    | nil => rfl
    | cons p t => simp at hkeys
  | cons p t ih =>
    intro m2 hkeys hnd hlook
    obtain ⟨k, v⟩ := p
    cases m2 with
    | nil => simp at hkeys
    | cons p2 t2 =>
      obtain ⟨k2, v2⟩ := p2
      simp only [List.map_cons, List.cons.injEq] at hkeys
      obtain ⟨hk, htkeys⟩ := hkeys
      subst hk
      have hv : v = v2 := by
        have := hlook k
        simp [alookup_cons] at this
        exact this
      subst hv
      simp only [List.map_cons, List.nodup_cons] at hnd
      congr 1
      apply ih t2 htkeys hnd.2
      intro k'
      by_cases hkk : k = k'
      · subst hkk
        have h1 : alookup t k = none := (alookup_eq_none t k).mpr hnd.1
        have h2 : alookup t2 k = none := by
          rw [alookup_eq_none, ← htkeys]
          exact hnd.1
        rw [h1, h2]
      · have := hlook k'
        simpa [alookup_cons, hkk] using this

/-! ### Leaf rows are untouched -/

/-- The column loop does nothing on a row with no children. -/
theorem updateCols_leaf (cfgs : List ColumnConfig) (r : RowData)
    (h : r.children = []) : updateCols r cfgs = some r := by
  induction cfgs with
  | nil => rfl
  | cons cfg rest ih => simp [updateCols, h, ih]

/-- `RowData::update` is the identity on a row with no children. -/
theorem update_leaf (r : RowData) (cfgs : List ColumnConfig)
    (h : r.children = []) : update r cfgs = some r := by
  cases r with
  | mk n cd ch en ex ed =>
    simp at h
    subst h
    simp [update, updateEach]
    exact updateCols_leaf cfgs _ rfl

/-! ### Agreement between the pass and its pure mirror -/

@[simp] theorem childWrite_name (ct cid c) : (childWrite ct cid c).name = c.name := by
  cases ct <;> simp [childWrite]

@[simp] theorem childWrite_children (ct cid c) :
    (childWrite ct cid c).children = c.children := by
  cases ct <;> simp [childWrite]

@[simp] theorem childWrite_enabled (ct cid c) :
    (childWrite ct cid c).enabled = c.enabled := by
  cases ct <;> simp [childWrite]

@[simp] theorem childWrite_expanded (ct cid c) :
    (childWrite ct cid c).expanded = c.expanded := by
  cases ct <;> simp [childWrite]

@[simp] theorem childWrite_edit (ct cid c) :
    ( childWrite ct cid c).edit_name = c.edit_name := by
  cases ct <;> simp [childWrite]

theorem stepChild_eq (ct : ColumnType) (cid : ColumnID) (c : RowData) (acc : ℚ)
    (h : isRS ct = false) :
    stepChild ct cid c acc = some (childWrite ct cid c, acc + childContrib ct cid c) := by
  cases ct with
  | Number =>
    by_cases he : c.enabled <;> simp [stepChild, childWrite, childContrib, he]
  | Text => simp [stepChild, childWrite, childContrib]
  | MultiplyByFactor src f =>
    by_cases he : c.enabled <;> simp [stepChild, childWrite, childContrib, he]
  | RowSum l => simp [isRS] at h

theorem colPass_eq (cfg : ColumnConfig) (h : isRS cfg.col_type = false) :
    ∀ (ch : List RowData) (acc : ℚ),
    colPass cfg ch acc =
      some (ch.map (childWrite cfg.col_type cfg.id), acc + colSum cfg ch) := by
  intro ch
  induction ch with
  | nil => intro acc; simp [colPass, colSum]
  | cons c cs ih =>
    intro acc
    rw [colPass, stepChild_eq cfg.col_type cfg.id c acc h]
    simp [ih, colSum, add_assoc]

theorem colPass_rowsum_none (cfg : ColumnConfig) (l : List ColumnID)
    (h : cfg.col_type = ColumnType.RowSum l) (c : RowData) (cs : List RowData) (acc : ℚ) :
    colPass cfg (c :: cs) acc = none := by
  rw [colPass]
  simp [stepChild, h]

theorem updateCols_eq_applyCols (cfgs : List ColumnConfig)
    (h : hasRowSum cfgs = false) :
    ∀ r, updateCols r cfgs = some (applyCols r cfgs) := by
  induction cfgs with
  | nil => intro r; rfl
  | cons cfg rest ih =>
    intro r
    simp only [hasRowSum, List.any_cons, Bool.or_eq_false_iff] at h
    by_cases hch : r.children.isEmpty
    · have hcol : applyCol cfg r = r := by simp [applyCol, hch]
      simp only [updateCols, hch, if_true, applyCols, hcol]
      exact ih (by simp [hasRowSum, h.2]) r
    · have hcol : applyCol cfg r =
          RowData.mk r.name (insertA r.col_data cfg.id (colSum cfg r.children))
            (r.children.map (childWrite cfg.col_type cfg.id))
            r.enabled r.expanded r.edit_name := by
        simp [applyCol, hch]
      simp only [updateCols, hch, if_false, colPass_eq cfg h.1, zero_add, applyCols, hcol]
      exact ih (by simp [hasRowSum, h.2]) _

theorem updateEach_eq_applyEach (cfgs : List ColumnConfig) :
    ∀ ch : List RowData, (∀ c ∈ ch, update c cfgs = some (applyUpdate c cfgs)) →
      updateEach ch cfgs = some (applyEach ch cfgs) := by
  intro ch
  induction ch with
  | nil => intro _; rfl
  | cons c cs ih =>
    intro hs
    rw [updateEach, hs c (by simp), ih (fun x hx => hs x (by simp [hx])), applyEach]

/-- Whenever the schema has no `RowSum` column, the pass succeeds and equals
its pure mirror. -/
theorem update_eq_applyUpdate (cfgs : List ColumnConfig)
    (h : hasRowSum cfgs = false) :
    ∀ r, update r cfgs = some (applyUpdate r cfgs) := by
  apply RowData.inductionOn
  intro n cd ch en ex ed hih
  rw [update, updateEach_eq_applyEach cfgs ch hih, applyUpdate]
  exact updateCols_eq_applyCols cfgs h _

theorem updateEach_length (cfgs : List ColumnConfig) :
    ∀ ch ch1, updateEach ch cfgs = some ch1 → ch1.length = ch.length := by
  intro ch
  induction ch with
  | nil =>
    intro ch1 h
    simp [updateEach] at h
    subst h
    rfl
  | cons c cs ih =>
    intro ch1 h
    rw [updateEach] at h
    cases hc : update c cfgs with
    | none => rw [hc] at h; cases h
    | some c1 =>
      rw [hc] at h
      cases hcs : updateEach cs cfgs with
      | none => rw [hcs] at h; cases h
      | some cs1 =>
        rw [hcs] at h
        simp at h
        subst h
        simp [ih cs1 hcs]

theorem updateCols_none_of (cfgs : List ColumnConfig) :
    ∀ r, r.children ≠ [] → hasRowSum cfgs = true → updateCols r cfgs = none := by
  induction cfgs with
  | nil => intro r _ h; simp [hasRowSum] at h
  | cons cfg rest ih =>
    intro r hch hrs
    have hne : r.children.isEmpty = false := by
      cases hc : r.children with
      | nil => exact absurd hc hch
      | cons a l => simp [hc]
    by_cases hc : isRS cfg.col_type
    · cases hct : cfg.col_type with
      | RowSum l =>
        cases hc2 : r.children with
        | nil => exact absurd hc2 hch
        | cons a as =>
          rw [updateCols]
          simp only [hne, if_false]
          rw [hc2, colPass_rowsum_none cfg l hct a as 0]
          simp
      | Number => simp [isRS, hct] at hc
      | Text => simp [isRS, hct] at hc
      | MultiplyByFactor s f => simp [isRS, hct] at hc
    · have hc' : isRS cfg.col_type = false := by
        cases h2 : isRS cfg.col_type
        · rfl
        · exact absurd h2 hc
      have hrest : hasRowSum rest = true := by
        simp only [hasRowSum, List.any_cons, hc', Bool.false_or] at hrs
        exact hrs
      rw [updateCols]
      simp only [hne, if_false, colPass_eq cfg hc', zero_add]
      apply ih
      · simp only [RowData.children_mk]
        intro hmap
        exact hch (List.map_eq_nil_iff.mp hmap)
      · exact hrest

/-- The pass fails (the `todo!()` panic) exactly when the row has children
and the schema contains a `RowSum` column. -/
theorem update_none_iff (r : RowData) (cfgs : List ColumnConfig) :
    update r cfgs = none ↔ r.children ≠ [] ∧ hasRowSum cfgs = true := by
  constructor
  · intro h
    by_cases hch : r.children = []
    · rw [update_leaf r cfgs hch] at h
      cases h
    · cases hrs : hasRowSum cfgs
      · rw [update_eq_applyUpdate cfgs hrs r] at h
        cases h
      · exact ⟨hch, rfl⟩
  · rintro ⟨hch, hrs⟩
    cases r with
    | mk n cd ch en ex ed =>
      rw [update]
      cases hres : updateEach ch cfgs with
      | none => rfl
      | some ch1 =>
        apply updateCols_none_of cfgs _ _ hrs
        simp only [RowData.children_mk]
        intro hnil
        apply hch
        have := updateEach_length cfgs ch ch1 hres
        rw [hnil] at this
        simp only [RowData.children_mk]
        exact List.length_eq_zero.mp this.symm

/-! ### Structure of the pure mirror -/

theorem childWrite_of_not_multi (ct : ColumnType) (cid : ColumnID) (c : RowData)
    (h : isMulti ct = false) : childWrite ct cid c = c := by
  cases ct <;> simp_all [childWrite, isMulti]

theorem childWrite_col_data (src : ColumnID) (f : ℚ) (cid : ColumnID) (c : RowData) :
    (childWrite (ColumnType.MultiplyByFactor src f) cid c).col_data =
      insertA c.col_data cid (lookupD c.col_data src * f) := by
  simp [childWrite]

@[simp] theorem mbfIds_nil : mbfIds [] = [] := rfl

theorem mbfIds_cons (cfg : ColumnConfig) (rest : List ColumnConfig) :
    mbfIds (cfg :: rest) =
      if isMulti cfg.col_type then cfg.id :: mbfIds rest else mbfIds rest := by
  by_cases h : isMulti cfg.col_type <;> simp [mbfIds, List.filter_cons, h]

theorem mbfIds_subset_ids (cfgs : List ColumnConfig) :
    ∀ k ∈ mbfIds cfgs, k ∈ cfgs.map (fun c => c.id) := by
  intro k hk
  simp only [mbfIds, List.mem_map, List.mem_filter] at hk
  obtain ⟨c, ⟨hc, _⟩, rfl⟩ := hk
  exact List.mem_map_of_mem _ hc

theorem mem_mbfIds (cfgs : List ColumnConfig) (cfg : ColumnConfig)
    (hmem : cfg ∈ cfgs) (src : ColumnID) (f : ℚ)
    (hty : cfg.col_type = ColumnType.MultiplyByFactor src f) :
    cfg.id ∈ mbfIds cfgs := by
  simp only [mbfIds, List.mem_map, List.mem_filter]
  exact ⟨cfg, ⟨hmem, by simp [isMulti, hty]⟩, rfl⟩

theorem mbfIds_tail (cfg : ColumnConfig) (rest : List ColumnConfig) (k : ColumnID)
    (h : k ∉ mbfIds (cfg :: rest)) : k ∉ mbfIds rest := by
  rw [mbfIds_cons] at h
  by_cases hm : isMulti cfg.col_type
  · rw [if_pos hm] at h
    simp only [List.mem_cons] at h
    push_neg at h
    exact h.2
  · rwa [if_neg hm] at h

/-- Columns with the same id in a duplicate-free schema are the same column. -/
theorem id_inj (cfgs : List ColumnConfig) (hnd : (cfgs.map (fun c => c.id)).Nodup)
    (cfg1 cfg2 : ColumnConfig) (h1 : cfg1 ∈ cfgs) (h2 : cfg2 ∈ cfgs)
    (hid : cfg1.id = cfg2.id) : cfg1 = cfg2 :=
  List.inj_on_of_nodup_map hnd h1 h2 hid

/-- A `Number` column's id is never a `MultiplyByFactor` id in a
duplicate-free schema. -/
theorem number_id_not_mbf (cfgs : List ColumnConfig)
    (hnd : (cfgs.map (fun c => c.id)).Nodup) (cfg : ColumnConfig)
    (hmem : cfg ∈ cfgs) (hty : cfg.col_type = ColumnType.Number) :
    cfg.id ∉ mbfIds cfgs := by
  intro hk
  simp only [mbfIds, List.mem_map, List.mem_filter] at hk
  obtain ⟨c, ⟨hc, hmul⟩, hid⟩ := hk
  have : c = cfg := id_inj cfgs hnd c cfg hc hmem hid
  subst this
  rw [hty] at hmul
  simp [isMulti] at hmul

theorem writeAll_name (cfgs : List ColumnConfig) :
    ∀ c, (writeAll cfgs c).name = c.name := by
  induction cfgs with
  | nil => intro c; rfl
  | cons cfg rest ih => intro c; rw [writeAll]; rw [ih]; simp

theorem writeAll_children (cfgs : List ColumnConfig) :
    ∀ c, (writeAll cfgs c).children = c.children := by
  induction cfgs with
  | nil => intro c; rfl
  | cons cfg rest ih => intro c; rw [writeAll]; rw [ih]; simp

theorem writeAll_enabled (cfgs : List ColumnConfig) :
    ∀ c, (writeAll cfgs c).enabled = c.enabled := by
  induction cfgs with
  | nil => intro c; rfl
  | cons cfg rest ih => intro c; rw [writeAll]; rw [ih]; simp

theorem writeAll_expanded (cfgs : List ColumnConfig) :
    ∀ c, (writeAll cfgs c).expanded = c.expanded := by
  induction cfgs with
  | nil => intro c; rfl
  | cons cfg rest ih => intro c; rw [writeAll]; rw [ih]; simp

theorem writeAll_edit (cfgs : List ColumnConfig) :
    ∀ c, (writeAll cfgs c).edit_name = c.edit_name := by
  induction cfgs with
  | nil => intro c; rfl
  | cons cfg rest ih => intro c; rw [writeAll]; rw [ih]; simp

/-- `writeAll` only writes under `MultiplyByFactor` column ids. -/
theorem writeAll_alookup_of_not_mbf (cfgs : List ColumnConfig) (k : ColumnID)
    (hk : k ∉ mbfIds cfgs) :
    ∀ c, alookup (writeAll cfgs c).col_data k = alookup c.col_data k := by
  induction cfgs with
  | nil => intro c; rfl
  | cons cfg rest ih =>
    intro c
    rw [writeAll, ih (mbfIds_tail cfg rest k hk)]
    cases hm : isMulti cfg.col_type
    · rw [childWrite_of_not_multi _ _ _ hm]
    · cases hct : cfg.col_type with
      | MultiplyByFactor src f =>
        rw [childWrite_col_data, alookup_insertA]
        have hne : cfg.id ≠ k := by
          intro hh
          apply hk
          rw [mbfIds_cons, if_pos hm, ← hh]
          simp
        rw [if_neg hne]
      | Number => rw [hct] at hm; simp [isMulti] at hm
      | Text => rw [hct] at hm; simp [isMulti] at hm
      | RowSum l => rw [hct] at hm; simp [isMulti] at hm

/-- After `writeAll`, a `MultiplyByFactor` column of a well-formed schema
stores factor × the original source value. -/
theorem writeAll_alookup_mbf (cfgs : List ColumnConfig) :
    ∀ (cfg : ColumnConfig) (src : ColumnID) (f : ℚ), cfg ∈ cfgs →
    cfg.col_type = ColumnType.MultiplyByFactor src f →
    (cfgs.map (fun c => c.id)).Nodup → src ∉ mbfIds cfgs →
    ∀ c, alookup (writeAll cfgs c).col_data cfg.id =
      some (lookupD c.col_data src * f) := by
  induction cfgs with
  | nil => intro cfg src f hmem; simp at hmem
  | cons cfg0 rest ih =>
    intro cfg src f hmem hty hnd hsrc c
    rw [writeAll]
    rcases List.mem_cons.mp hmem with heq | hmemr
    · subst heq
      have hid_not : cfg.id ∉ mbfIds rest := by
        intro hmm
        have := mbfIds_subset_ids rest cfg.id hmm
        simp only [List.map_cons, List.nodup_cons] at hnd
        exact hnd.1 this
      rw [writeAll_alookup_of_not_mbf rest cfg.id hid_not]
      rw [hty, childWrite_col_data, alookup_insertA, if_pos rfl]
    · have hnd' : (rest.map (fun c => c.id)).Nodup := by
        simp only [List.map_cons, List.nodup_cons] at hnd
        exact hnd.2
      have hsrc' : src ∉ mbfIds rest := mbfIds_tail cfg0 rest src hsrc
      rw [ih cfg src f hmemr hty hnd' hsrc']
      cases hm : isMulti cfg0.col_type
      · rw [childWrite_of_not_multi _ _ _ hm]
      · cases hct : cfg0.col_type with
        | MultiplyByFactor src0 f0 =>
          rw [childWrite_col_data]
          have hne : cfg0.id ≠ src := by
            intro hh
            apply hsrc
            rw [mbfIds_cons, if_pos hm, ← hh]
            simp
          unfold lookupD
          rw [alookup_insertA, if_neg hne]
        | Number => rw [hct] at hm; simp [isMulti] at hm
        | Text => rw [hct] at hm; simp [isMulti] at hm
        | RowSum l => rw [hct] at hm; simp [isMulti] at hm

/-- `foldInserts` does not touch keys outside the schema's ids. -/
theorem foldInserts_alookup_of_not_mem (cfgs : List ColumnConfig) (k : ColumnID)
    (hk : k ∉ cfgs.map (fun c => c.id)) :
    ∀ ch m, alookup (foldInserts cfgs ch m) k = alookup m k := by
  induction cfgs with
  | nil => intro ch m; rfl
  | cons cfg rest ih =>
    intro ch m
    simp only [List.map_cons, List.mem_cons] at hk
    push_neg at hk
    rw [foldInserts, ih hk.2, alookup_insertA]
    have : cfg.id ≠ k := fun hh => hk.1 hh.symm
    rw [if_neg this]

/-- `foldInserts` stores each column's sum under the column's id. -/
theorem foldInserts_alookup_mem (cfgs : List ColumnConfig) :
    ∀ (cfg : ColumnConfig), cfg ∈ cfgs → (cfgs.map (fun c => c.id)).Nodup →
    ∀ ch m, alookup (foldInserts cfgs ch m) cfg.id = some (colSum cfg ch) := by
  induction cfgs with
  | nil => intro cfg hmem; simp at hmem
  | cons cfg0 rest ih =>
    intro cfg hmem hnd ch m
    simp only [List.map_cons, List.nodup_cons] at hnd
    rcases List.mem_cons.mp hmem with heq | hmemr
    · subst heq
      rw [foldInserts]
      rw [foldInserts_alookup_of_not_mem rest cfg.id hnd.1]
      rw [alookup_insertA, if_pos rfl]
    · rw [foldInserts]
      exact ih cfg hmemr hnd.2 ch _

/-! ### Children and skeleton of `applyCols` -/

theorem applyCol_children (cfg : ColumnConfig) (r : RowData) :
    (applyCol cfg r).children = r.children.map (childWrite cfg.col_type cfg.id) := by
  by_cases h : r.children.isEmpty
  · have hnil : r.children = [] := by
      cases hc : r.children
      · rfl
      · rw [hc] at h; simp at h
    rw [applyCol, if_pos h, hnil]
    simp
  · simp [applyCol, h]

theorem applyCol_name (cfg : ColumnConfig) (r : RowData) :
    (applyCol cfg r).name = r.name := by
  by_cases h : r.children.isEmpty <;> simp [applyCol, h]

theorem applyCol_enabled (cfg : ColumnConfig) (r : RowData) :
    (applyCol cfg r).enabled = r.enabled := by
  by_cases h : r.children.isEmpty <;> simp [applyCol, h]

theorem applyCol_expanded (cfg : ColumnConfig) (r : RowData) :
    (applyCol cfg r).expanded = r.expanded := by
  by_cases h : r.children.isEmpty <;> simp [applyCol, h]

theorem applyCol_edit (cfg : ColumnConfig) (r : RowData) :
    (applyCol cfg r).edit_name = r.edit_name := by
  by_cases h : r.children.isEmpty <;> simp [applyCol, h]

theorem applyCols_children (cfgs : List ColumnConfig) :
    ∀ r, (applyCols r cfgs).children = r.children.map (writeAll cfgs) := by
  induction cfgs with
  | nil =>
    intro r
    show r.children = r.children.map (writeAll [])
    have hmap : ∀ l : List RowData, l.map (writeAll []) = l := by
      intro l
      induction l with
      | nil => rfl
      | cons c cs ihc =>
        rw [List.map_cons, ihc]
        rfl
    rw [hmap]
  | cons cfg rest ih =>
    intro r
    rw [applyCols, ih, applyCol_children, List.map_map]
    apply List.map_congr_left
    intro c _
    rfl

theorem applyCols_name (cfgs : List ColumnConfig) :
    ∀ r, (applyCols r cfgs).name = r.name := by
  induction cfgs with
  | nil => intro r; rfl
  | cons cfg rest ih => intro r; rw [applyCols, ih, applyCol_name]

theorem applyCols_enabled (cfgs : List ColumnConfig) :
    ∀ r, (applyCols r cfgs).enabled = r.enabled := by
  induction cfgs with
  | nil => intro r; rfl
  | cons cfg rest ih => intro r; rw [applyCols, ih, applyCol_enabled]

theorem applyCols_expanded (cfgs : List ColumnConfig) :
    ∀ r, (applyCols r cfgs).expanded = r.expanded := by
  induction cfgs with
  | nil => intro r; rfl
  | cons cfg rest ih => intro r; rw [applyCols, ih, applyCol_expanded]

theorem applyCols_edit (cfgs : List ColumnConfig) :
    ∀ r, (applyCols r cfgs).edit_name = r.edit_name := by
  induction cfgs with
  | nil => intro r; rfl
  | cons cfg rest ih => intro r; rw [applyCols, ih, applyCol_edit]

theorem applyCols_leaf (cfgs : List ColumnConfig) :
    ∀ r, r.children = [] → applyCols r cfgs = r := by
  induction cfgs with
  | nil => intro r _; rfl
  | cons cfg rest ih =>
    intro r h
    rw [applyCols]
    have : applyCol cfg r = r := by simp [applyCol, h]
    rw [this]
    exact ih r h

theorem applyUpdate_leaf (n : String) (cd : ColData) (en ex ed : Bool)
    (cfgs : List ColumnConfig) :
    applyUpdate (RowData.mk n cd [] en ex ed) cfgs = RowData.mk n cd [] en ex ed := by
  rw [applyUpdate, applyEach]
  exact applyCols_leaf cfgs _ rfl

theorem applyEach_eq_map (cfgs : List ColumnConfig) :
    ∀ ch : List RowData, applyEach ch cfgs = ch.map (fun c => applyUpdate c cfgs) := by
  intro ch
  induction ch with
  | nil => rfl
  | cons c cs ih => rw [applyEach, ih]; rfl

theorem applyUpdate_children (n : String) (cd : ColData) (ch : List RowData)
    (en ex ed : Bool) (cfgs : List ColumnConfig) :
    (applyUpdate (RowData.mk n cd ch en ex ed) cfgs).children =
      (applyEach ch cfgs).map (writeAll cfgs) := by
  rw [applyUpdate, applyCols_children]
  simp

theorem applyUpdate_enabled (cfgs : List ColumnConfig) (r : RowData) :
    (applyUpdate r cfgs).enabled = r.enabled := by
  cases r with
  | mk n cd ch en ex ed => rw [applyUpdate, applyCols_enabled]; simp

theorem applyUpdate_name (cfgs : List ColumnConfig) (r : RowData) :
    (applyUpdate r cfgs).name = r.name := by
  cases r with
  | mk n cd ch en ex ed => rw [applyUpdate, applyCols_name]; simp

/-! ### `allNodes` and `leaves` -/

theorem allNodes_eq (r : RowData) : allNodes r = r :: allNodesEach r.children := by
  cases r with
  | mk n cd ch en ex ed => rw [allNodes]; simp

theorem self_mem_allNodes (r : RowData) : r ∈ allNodes r := by
  rw [allNodes_eq]; simp

theorem mem_allNodesEach (node : RowData) :
    ∀ ch : List RowData, node ∈ allNodesEach ch ↔ ∃ c ∈ ch, node ∈ allNodes c := by
  intro ch
  induction ch with
  | nil => simp [allNodesEach]
  | cons c cs ih => simp [allNodesEach, ih]

theorem leaves_eq_leaf (r : RowData) (h : r.children = []) : leaves r = [r] := by
  cases r with
  | mk n cd ch en ex ed =>
    simp only [RowData.children_mk] at h
    subst h
    rw [leaves]

theorem leaves_eq_interior (r : RowData) (h : r.children ≠ []) :
    leaves r = leavesEach r.children := by
  cases r with
  | mk n cd ch en ex ed =>
    simp only [RowData.children_mk] at h ⊢
    cases ch with
    | nil => exact absurd rfl h
    | cons c cs => rw [leaves]

/-! ### Sums over children -/

theorem lookupD_of_alookup (m : ColData) (k : ColumnID) (v : ℚ)
    (h : alookup m k = some v) : lookupD m k = v := by
  rw [lookupD, h]
  rfl

theorem childWrite_alookup_ne (ct : ColumnType) (cid : ColumnID) (k : ColumnID)
    (hne : cid ≠ k) (c : RowData) :
    alookup (childWrite ct cid c).col_data k = alookup c.col_data k := by
  cases ct with
  | MultiplyByFactor src f => rw [childWrite_col_data, alookup_insertA, if_neg hne]
  | Number => rfl
  | Text => rfl
  | RowSum l => rfl

theorem sum_if_enabled (ch : List RowData) (g : RowData → ℚ) :
    (ch.map (fun c => if c.enabled then g c else 0)).sum =
      ((ch.filter (fun c => c.enabled)).map g).sum := by
  induction ch with
  | nil => rfl
  | cons c cs ih =>
    by_cases he : c.enabled <;> simp [List.filter_cons, he, ih]

theorem colSum_number (cfg : ColumnConfig) (hty : cfg.col_type = ColumnType.Number)
    (ch : List RowData) :
    colSum cfg ch =
      ((ch.map (fun c => (c.enabled, lookupD c.col_data cfg.id))).map
        (fun p => if p.1 then p.2 else 0)).sum := by
  rw [colSum, hty, List.map_map]
  congr 1

theorem colSum_number_congr (cfg : ColumnConfig)
    (hty : cfg.col_type = ColumnType.Number) (ch1 ch2 : List RowData)
    (h : ch1.map (fun c => (c.enabled, lookupD c.col_data cfg.id)) =
      ch2.map (fun c => (c.enabled, lookupD c.col_data cfg.id))) :
    colSum cfg ch1 = colSum cfg ch2 := by
  rw [colSum_number cfg hty, colSum_number cfg hty, h]

theorem colSum_number_filter (cfg : ColumnConfig)
    (hty : cfg.col_type = ColumnType.Number) (ch : List RowData) :
    colSum cfg ch =
      ((ch.filter (fun c => c.enabled)).map (fun c => lookupD c.col_data cfg.id)).sum := by
  rw [← sum_if_enabled, colSum, hty]
  congr 1

/-- Columns whose ids do not occur in the schema are not touched by the
column loop: neither on the row itself nor on its children. -/
theorem applyCols_untouched (cfgs : List ColumnConfig) (k : ColumnID) :
    k ∉ cfgs.map (fun c => c.id) → ∀ r,
    alookup (applyCols r cfgs).col_data k = alookup r.col_data k ∧
      (applyCols r cfgs).children.map (fun c => (c.enabled, lookupD c.col_data k)) =
        r.children.map (fun c => (c.enabled, lookupD c.col_data k)) := by
  induction cfgs with
  | nil => intro _ r; exact ⟨rfl, rfl⟩
  | cons cfg rest ih =>
    intro hk r
    simp only [List.map_cons, List.mem_cons] at hk
    push_neg at hk
    have hne : cfg.id ≠ k := fun hh => hk.1 hh.symm
    obtain ⟨h1, h2⟩ := ih hk.2 (applyCol cfg r)
    rw [applyCols]
    refine ⟨?_, ?_⟩
    · rw [h1]
      by_cases hch : r.children.isEmpty
      · rw [applyCol, if_pos hch]
      · rw [applyCol, if_neg hch]
        simp only [RowData.col_data_mk]
        rw [alookup_insertA, if_neg hne]
    · rw [h2, applyCol_children, List.map_map]
      apply List.map_congr_left
      intro c _
      show (_, lookupD (childWrite cfg.col_type cfg.id c).col_data k) = _
      rw [childWrite_enabled, lookupD, childWrite_alookup_ne cfg.col_type cfg.id k hne]
      rfl

/-- After the column loop, a `Number` column of a duplicate-free schema
stores the child-loop sum over the original children, and the children's
enabled flags and values under that column are unchanged. -/
theorem applyCols_number (cfg : ColumnConfig) (hty : cfg.col_type = ColumnType.Number) :
    ∀ cfgs, cfg ∈ cfgs → (cfgs.map (fun c => c.id)).Nodup →
    ∀ r, r.children ≠ [] →
    alookup (applyCols r cfgs).col_data cfg.id = some (colSum cfg r.children) ∧
      (applyCols r cfgs).children.map (fun c => (c.enabled, lookupD c.col_data cfg.id)) =
        r.children.map (fun c => (c.enabled, lookupD c.col_data cfg.id)) := by
  intro cfgs
  induction cfgs with
  | nil => intro hmem; simp at hmem
  | cons cfg0 rest ih =>
    intro hmem hnd r hch
    simp only [List.map_cons, List.nodup_cons] at hnd
    have hchE : r.children.isEmpty = false := by
      cases hc : r.children
      · exact absurd hc hch
      · simp [hc]
    rw [applyCols]
    rcases List.mem_cons.mp hmem with heq | hmemr
    · subst heq
      obtain ⟨h1, h2⟩ := applyCols_untouched rest cfg.id hnd.1 (applyCol cfg r)
      have hwid : ∀ c : RowData, childWrite cfg.col_type cfg.id c = c := by
        intro c
        apply childWrite_of_not_multi
        rw [hty]
        rfl
      have hchmap : r.children.map (childWrite cfg.col_type cfg.id) = r.children := by
        rw [List.map_congr_left (fun c _ => hwid c)]
        exact List.map_id _
      refine ⟨?_, ?_⟩
      · rw [h1, applyCol, if_neg (by rw [hchE]; simp)]
        simp only [RowData.col_data_mk]
        rw [alookup_insertA, if_pos rfl]
      · rw [h2, applyCol_children, hchmap]
    · have hne0 : cfg0.id ≠ cfg.id := by
        intro hh
        apply hnd.1
        rw [hh]
        exact List.mem_map_of_mem _ hmemr
      have hchne : (applyCol cfg0 r).children ≠ [] := by
        rw [applyCol_children]
        intro hmm
        exact hch (List.map_eq_nil_iff.mp hmm)
      obtain ⟨h1, h2⟩ := ih hmemr hnd.2 (applyCol cfg0 r) hchne
      have hpair : (applyCol cfg0 r).children.map
          (fun c => (c.enabled, lookupD c.col_data cfg.id)) =
          r.children.map (fun c => (c.enabled, lookupD c.col_data cfg.id)) := by
        rw [applyCol_children, List.map_map]
        apply List.map_congr_left
        intro c _
        show (_, lookupD (childWrite cfg0.col_type cfg0.id c).col_data cfg.id) = _
        rw [childWrite_enabled, lookupD,
          childWrite_alookup_ne cfg0.col_type cfg0.id cfg.id hne0]
        rfl
      refine ⟨?_, ?_⟩
      · rw [h1]
        congr 1
        exact colSum_number_congr cfg hty _ _ hpair
      · rw [h2, hpair]

/-- Every interior node of the recomputed tree stores, under a `Number`
column, the sum of its enabled children's stored values. -/
theorem applyUpdate_number_nodes (cfgs : List ColumnConfig) (cfg : ColumnConfig)
    (hmem : cfg ∈ cfgs) (hty : cfg.col_type = ColumnType.Number)
    (hnd : (cfgs.map (fun c => c.id)).Nodup) :
    ∀ r, ∀ node ∈ allNodes (applyUpdate r cfgs), node.children ≠ [] →
      lookupD node.col_data cfg.id =
        ((node.children.filter (fun c => c.enabled)).map
          (fun c => lookupD c.col_data cfg.id)).sum := by
  have hnotmbf : cfg.id ∉ mbfIds cfgs := number_id_not_mbf cfgs hnd cfg hmem hty
  apply RowData.inductionOn (fun r => ∀ node ∈ allNodes (applyUpdate r cfgs),
    node.children ≠ [] →
      lookupD node.col_data cfg.id =
        ((node.children.filter (fun c => c.enabled)).map
          (fun c => lookupD c.col_data cfg.id)).sum)
  intro n cd ch en ex ed hih node hmemnode hchn
  by_cases hch : ch = []
  · subst hch
    rw [applyUpdate_leaf, allNodes_eq] at hmemnode
    simp only [RowData.children_mk, allNodesEach] at hmemnode
    rcases List.mem_cons.mp hmemnode with heq | hmm
    · subst heq
      simp at hchn
    · simp at hmm
  · rw [applyUpdate] at hmemnode
    rw [allNodes_eq] at hmemnode
    rcases List.mem_cons.mp hmemnode with heq | hmm
    · -- the root of the recomputed tree
      have hchD : (RowData.mk n cd (applyEach ch cfgs) en ex ed).children ≠ [] := by
        simp only [RowData.children_mk, applyEach_eq_map]
        intro hmm2
        exact hch (List.map_eq_nil_iff.mp hmm2)
      obtain ⟨h1, h2⟩ := applyCols_number cfg hty cfgs hmem hnd _ hchD
      subst heq
      rw [lookupD_of_alookup _ _ _ h1]
      rw [colSum_number_congr cfg hty _ _ (by rw [h2])]
      exact colSum_number_filter cfg hty _
    · -- a node strictly inside a recomputed child subtree
      rw [applyCols_children] at hmm
      simp only [RowData.children_mk] at hmm
      rw [mem_allNodesEach] at hmm
      obtain ⟨w, hw, hnodew⟩ := hmm
      rw [List.mem_map] at hw
      obtain ⟨d, hd, rfl⟩ := hw
      rw [applyEach_eq_map, List.mem_map] at hd
      obtain ⟨c, hc, rfl⟩ := hd
      rw [allNodes_eq] at hnodew
      rcases List.mem_cons.mp hnodew with heqw | hmmw
      · -- the child itself, after the parent's write-back pass
        subst heqw
        have hchd : (applyUpdate c cfgs).children ≠ [] := by
          rw [← writeAll_children cfgs (applyUpdate c cfgs)]
          exact hchn
        have hform := hih c hc (applyUpdate c cfgs)
          (self_mem_allNodes _) hchd
        rw [lookupD, writeAll_alookup_of_not_mbf cfgs cfg.id hnotmbf, ← lookupD]
        rw [writeAll_children]
        exact hform
      · -- nodes deeper inside the child's subtree are untouched by the parent
        rw [writeAll_children] at hmmw
        apply hih c hc node _ hchn
        rw [allNodes_eq]
        exact List.mem_cons_of_mem _ hmmw

/-! ### Claim theorems -/

/-- C1: for every interior row of the recomputed tree and every `Number`
(Direct) column of a duplicate-free schema, one pass of `RowData::update`
stores on that row the sum of its enabled children's (already recomputed)
stored values; disabled children's stored values do not enter the sum. -/
theorem c1_number_parent_sum (r r' : RowData) (cfgs : List ColumnConfig)
    (cfg : ColumnConfig) (hup : update r cfgs = some r') (hmem : cfg ∈ cfgs)
    (hty : cfg.col_type = ColumnType.Number)
    (hnd : (cfgs.map (fun c => c.id)).Nodup) :
    ∀ node ∈ allNodes r', node.children ≠ [] →
      lookupD node.col_data cfg.id =
        ((node.children.filter (fun c => c.enabled)).map
          (fun c => lookupD c.col_data cfg.id)).sum := by
  by_cases hch : r.children = []
  · rw [update_leaf r cfgs hch] at hup
    have heq : r = r' := by
      injection hup
    subst heq
    intro node hnode hchn
    rw [allNodes_eq] at hnode
    rcases List.mem_cons.mp hnode with heq | hmm
    · subst heq
      exact absurd hch hchn
    · rw [hch] at hmm
      simp [allNodesEach] at hmm
  · cases hrs : hasRowSum cfgs
    · rw [update_eq_applyUpdate cfgs hrs r] at hup
      have heq : applyUpdate r cfgs = r' := by
        injection hup
      subst heq
      exact applyUpdate_number_nodes cfgs cfg hmem hty hnd r
    · exfalso
      rw [(update_none_iff r cfgs).mpr ⟨hch, hrs⟩] at hup
      cases hup

/-- Witness for C1 at a concrete tree: one enabled child (`a = 3`) and one
disabled child (`a = 5`); the parent stores `a = 3`. -/
theorem c1_number_parent_sum_w :
    update exNumRoot exNumCfgs = some exNumOut ∧
    (∀ node ∈ allNodes exNumOut, node.children ≠ [] →
      lookupD node.col_data "a" =
        ((node.children.filter (fun c => c.enabled)).map
          (fun c => lookupD c.col_data "a")).sum) := by
  have hup : update exNumRoot exNumCfgs = some exNumOut := by
    simp [update, updateEach, updateCols, colPass, stepChild, exNumRoot, exNumCfgs,
      exNumOut, lookupD, alookup, insertA]
  refine ⟨hup, ?_⟩
  exact c1_number_parent_sum exNumRoot exNumOut exNumCfgs
    (ColumnConfig.mk "a" "" "" ColumnType.Number) hup (by simp [exNumCfgs]) rfl
    (by simp [exNumCfgs])

/-- C5: the pass never fails on missing data — an absent key reads as 0 and a
non-`RowSum` column evaluates without error on any child — and it fails
exactly when a row with children is evaluated against a schema containing the
`RowSum` (SumOf) kind. -/
theorem c5_missing_data_rowsum_fail :
    (∀ (m : ColData) (k : ColumnID), alookup m k = none → lookupD m k = 0) ∧
    (∀ (ct : ColumnType) (cid : ColumnID) (c : RowData) (acc : ℚ),
      isRS ct = false → (stepChild ct cid c acc).isSome = true) ∧
    (∀ (r : RowData) (cfgs : List ColumnConfig),
      update r cfgs = none ↔ r.children ≠ [] ∧ hasRowSum cfgs = true) := by
  refine ⟨?_, ?_, ?_⟩
  · intro m k h
    rw [lookupD, h]
    rfl
  · intro ct cid c acc h
    rw [stepChild_eq ct cid c acc h]
    rfl
  · intro r cfgs
    exact update_none_iff r cfgs

/-- Witness for C5: the empty mapping reads as 0. -/
theorem c5_missing_data_rowsum_fail_w : lookupD ([] : ColData) "x" = 0 :=
  c5_missing_data_rowsum_fail.1 [] "x" rfl

/-- C10: `RowData::update` on a row with no children is a no-op for any
schema — in particular a schema containing `RowSum` cannot make the pass fail
on a childless root. -/
theorem c10_childless_noop (r : RowData) (cfgs : List ColumnConfig)
    (h : r.children = []) : update r cfgs = some r :=
  update_leaf r cfgs h

/-- Witness for C10: a childless root with a stored value, against a schema
containing `RowSum`, is returned unchanged. -/
theorem c10_childless_noop_w : update exLeafRoot exRowSumCfgs = some exLeafRoot :=
  c10_childless_noop exLeafRoot exRowSumCfgs rfl

/-! ### Leaf values under non-scaled columns survive the pass -/

theorem leaves_writeAll (cfgs : List ColumnConfig) (k : ColumnID)
    (hk : k ∉ mbfIds cfgs) (d : RowData) :
    (leaves (writeAll cfgs d)).map (fun c => lookupD c.col_data k) =
      (leaves d).map (fun c => lookupD c.col_data k) := by
  by_cases hch : d.children = []
  · have h1 : (writeAll cfgs d).children = [] := by
      rw [writeAll_children]
      exact hch
    rw [leaves_eq_leaf _ h1, leaves_eq_leaf _ hch]
    simp only [List.map_cons, List.map_nil]
    rw [lookupD, writeAll_alookup_of_not_mbf cfgs k hk, ← lookupD]
  · have h1 : (writeAll cfgs d).children ≠ [] := by
      rw [writeAll_children]
      exact hch
    rw [leaves_eq_interior _ h1, leaves_eq_interior _ hch, writeAll_children]

theorem applyUpdate_leaves_eq (cfgs : List ColumnConfig) (k : ColumnID)
    (hk : k ∉ mbfIds cfgs) :
    ∀ r, (leaves (applyUpdate r cfgs)).map (fun c => lookupD c.col_data k) =
      (leaves r).map (fun c => lookupD c.col_data k) := by
  apply RowData.inductionOn (fun r =>
    (leaves (applyUpdate r cfgs)).map (fun c => lookupD c.col_data k) =
      (leaves r).map (fun c => lookupD c.col_data k))
  intro n cd ch en ex ed hih
  by_cases hch : ch = []
  · subst hch
    rw [applyUpdate_leaf]
  · have hchD : ((applyEach ch cfgs).map (writeAll cfgs)) ≠ [] := by
      rw [applyEach_eq_map]
      intro hmm
      rw [List.map_eq_nil_iff] at hmm
      exact hch (List.map_eq_nil_iff.mp hmm)
    have h1 : leaves (applyUpdate (RowData.mk n cd ch en ex ed) cfgs) =
        leavesEach ((applyEach ch cfgs).map (writeAll cfgs)) := by
      rw [leaves_eq_interior _ (by rw [applyUpdate_children]; exact hchD),
        applyUpdate_children]
    rw [h1, leaves_eq_interior _ (by simpa using hch)]
    simp only [RowData.children_mk]
    rw [applyEach_eq_map]
    clear h1 hchD hch
    induction ch with
    | nil => rfl
    | cons c cs ihc =>
      rw [List.map_cons]
      show (leaves _ ++ leavesEach _).map _ = (leaves _ ++ leavesEach _).map _
      rw [List.map_append, List.map_append]
      rw [leaves_writeAll cfgs k hk, hih c (by simp)]
      rw [ihc (fun x hx => hih x (by simp [hx]))]

/-- C4: a recompute pass never changes any leaf row's stored value under a
`Number` (Direct) column of a duplicate-free schema: the list of leaf values
of that column is the same before and after the pass. -/
theorem c4_leaf_number_preserved (r r' : RowData) (cfgs : List ColumnConfig)
    (cfg : ColumnConfig) (hup : update r cfgs = some r') (hmem : cfg ∈ cfgs)
    (hty : cfg.col_type = ColumnType.Number)
    (hnd : (cfgs.map (fun c => c.id)).Nodup) :
    (leaves r').map (fun c => lookupD c.col_data cfg.id) =
      (leaves r).map (fun c => lookupD c.col_data cfg.id) := by
  by_cases hch : r.children = []
  · rw [update_leaf r cfgs hch] at hup
    have heq : r = r' := by injection hup
    subst heq
    rfl
  · cases hrs : hasRowSum cfgs
    · rw [update_eq_applyUpdate cfgs hrs r] at hup
      have heq : applyUpdate r cfgs = r' := by injection hup
      subst heq
      exact applyUpdate_leaves_eq cfgs cfg.id
        (number_id_not_mbf cfgs hnd cfg hmem hty) r
    · exfalso
      rw [(update_none_iff r cfgs).mpr ⟨hch, hrs⟩] at hup
      cases hup

/-- Witness for C4 at a concrete tree: both leaves keep their `a` values. -/
theorem c4_leaf_number_preserved_w :
    update exNumRoot exNumCfgs = some exNumOut ∧
    (leaves exNumOut).map (fun c => lookupD c.col_data "a") =
      (leaves exNumRoot).map (fun c => lookupD c.col_data "a") := by
  have hup : update exNumRoot exNumCfgs = some exNumOut := by
    simp [update, updateEach, updateCols, colPass, stepChild, exNumRoot, exNumCfgs,
      exNumOut, lookupD, alookup, insertA]
  refine ⟨hup, ?_⟩
  exact c4_leaf_number_preserved exNumRoot exNumOut exNumCfgs
    (ColumnConfig.mk "a" "" "" ColumnType.Number) hup (by simp [exNumCfgs]) rfl
    (by simp [exNumCfgs])

/-! ### Interior rows are overwritten under every column, Text included -/

theorem applyCols_preserves_mem (cfgs : List ColumnConfig) (k : ColumnID) :
    ∀ r, (alookup r.col_data k).isSome = true →
      (alookup (applyCols r cfgs).col_data k).isSome = true := by
  induction cfgs with
  | nil => intro r h; exact h
  | cons cfg rest ih =>
    intro r h
    rw [applyCols]
    apply ih
    by_cases hch : r.children.isEmpty
    · rw [applyCol, if_pos hch]
      exact h
    · rw [applyCol, if_neg hch]
      simp only [RowData.col_data_mk]
      rw [alookup_insertA]
      by_cases hk : cfg.id = k
      · rw [if_pos hk]; rfl
      · rw [if_neg hk]; exact h

theorem colSum_text (cfg : ColumnConfig) (hty : cfg.col_type = ColumnType.Text)
    (ch : List RowData) : colSum cfg ch = 0 := by
  rw [colSum, hty]
  induction ch with
  | nil => rfl
  | cons c cs ih => simpa [childContrib] using ih

/-- Every schema column gets an entry on an interior row. -/
theorem applyCols_all_keys (cfgs : List ColumnConfig) :
    ∀ cfg ∈ cfgs, ∀ r, r.children ≠ [] →
      (alookup (applyCols r cfgs).col_data cfg.id).isSome = true := by
  induction cfgs with
  | nil => intro cfg hmem; simp at hmem
  | cons cfg0 rest ih =>
    intro cfg hmem r hch
    have hchE : r.children.isEmpty = false := by
      cases hc : r.children
      · exact absurd hc hch
      · simp [hc]
    rw [applyCols]
    rcases List.mem_cons.mp hmem with heq | hmemr
    · subst heq
      apply applyCols_preserves_mem
      rw [applyCol, if_neg (by rw [hchE]; simp)]
      simp only [RowData.col_data_mk]
      rw [alookup_insertA, if_pos rfl]
      rfl
    · apply ih cfg hmemr
      rw [applyCol_children]
      intro hmm
      exact hch (List.map_eq_nil_iff.mp hmm)

/-- A `Text` column of a duplicate-free schema stores 0 on an interior row
after the column loop. -/
theorem applyCols_text (cfg : ColumnConfig) (hty : cfg.col_type = ColumnType.Text) :
    ∀ cfgs, cfg ∈ cfgs → (cfgs.map (fun c => c.id)).Nodup →
    ∀ r, r.children ≠ [] →
      alookup (applyCols r cfgs).col_data cfg.id = some 0 := by
  intro cfgs
  induction cfgs with
  | nil => intro hmem; simp at hmem
  | cons cfg0 rest ih =>
    intro hmem hnd r hch
    simp only [List.map_cons, List.nodup_cons] at hnd
    have hchE : r.children.isEmpty = false := by
      cases hc : r.children
      · exact absurd hc hch
      · simp [hc]
    rw [applyCols]
    rcases List.mem_cons.mp hmem with heq | hmemr
    · subst heq
      obtain ⟨h1, _⟩ := applyCols_untouched rest cfg.id hnd.1 (applyCol cfg r)
      rw [h1, applyCol, if_neg (by rw [hchE]; simp)]
      simp only [RowData.col_data_mk]
      rw [alookup_insertA, if_pos rfl, colSum_text cfg hty]
    · apply ih hmemr hnd.2
      rw [applyCol_children]
      intro hmm
      exact hch (List.map_eq_nil_iff.mp hmm)

/-- C8 counterexample: on an interior row with no stored `t`, a pass over a
schema with a `Text` column `t` creates the entry `t = 0` — the stored value
is not left untouched. -/
theorem c8_text_untouched_cex :
    alookup exTextRoot.col_data "t" = none ∧
    (update exTextRoot exTextCfgs).map (fun t => alookup t.col_data "t") =
      some (some 0) := by
  constructor
  · rfl
  · simp [update, updateEach, updateCols, colPass, stepChild, exTextRoot, exTextCfgs,
      insertA, alookup]

/-- C8 (amended): on an interior row a successful pass overwrites the stored
value of every schema column — a `Text` column is not skipped but set to 0.0,
the empty sum (so an entry exists for every column, `Text` included); reads of
absent columns yield 0.0 and mutation happens only through these per-column
stores. -/
theorem c8_interior_overwritten (r r' : RowData) (cfgs : List ColumnConfig)
    (hup : update r cfgs = some r') (hch : r.children ≠ []) :
    (∀ cfg ∈ cfgs, (alookup r'.col_data cfg.id).isSome = true) ∧
    (∀ cfg ∈ cfgs, cfg.col_type = ColumnType.Text →
      (cfgs.map (fun c => c.id)).Nodup → alookup r'.col_data cfg.id = some 0) := by
  have hrs : hasRowSum cfgs = false := by
    cases hrs : hasRowSum cfgs
    · rfl
    · exfalso
      rw [(update_none_iff r cfgs).mpr ⟨hch, hrs⟩] at hup
      cases hup
  rw [update_eq_applyUpdate cfgs hrs r] at hup
  have heq : applyUpdate r cfgs = r' := by injection hup
  subst heq
  cases r with
  | mk n cd ch en ex ed =>
    simp only [RowData.children_mk] at hch
    have hchD : (RowData.mk n cd (applyEach ch cfgs) en ex ed).children ≠ [] := by
      simp only [RowData.children_mk, applyEach_eq_map]
      intro hmm
      exact hch (List.map_eq_nil_iff.mp hmm)
    constructor
    · intro cfg hmem
      rw [applyUpdate]
      exact applyCols_all_keys cfgs cfg hmem _ hchD
    · intro cfg hmem hty hnd
      rw [applyUpdate]
      exact applyCols_text cfg hty cfgs hmem hnd _ hchD

/-- Witness for the amended C8 at the concrete `Text` schema. -/
theorem c8_interior_overwritten_w :
    update exTextRoot exTextCfgs = some exTextOut ∧
    (alookup exTextOut.col_data "t").isSome = true := by
  have hup : update exTextRoot exTextCfgs = some exTextOut := by
    simp [update, updateEach, updateCols, colPass, stepChild, exTextRoot, exTextCfgs,
      exTextOut, insertA, alookup]
  refine ⟨hup, ?_⟩
  exact (c8_interior_overwritten exTextRoot exTextOut exTextCfgs hup
    (by simp [exTextRoot])).1 (ColumnConfig.mk "t" "" "" ColumnType.Text)
    (by simp [exTextCfgs])

/-! ### Scaled (`MultiplyByFactor`) columns -/

theorem colSum_mbf (cfg : ColumnConfig) (src : ColumnID) (f : ℚ)
    (hty : cfg.col_type = ColumnType.MultiplyByFactor src f) (ch : List RowData) :
    colSum cfg ch =
      ((ch.map (fun c => (c.enabled, lookupD c.col_data src))).map
        (fun p => if p.1 then p.2 * f else 0)).sum := by
  rw [colSum, hty, List.map_map]
  congr 1

theorem colSum_mbf_congr (cfg : ColumnConfig) (src : ColumnID) (f : ℚ)
    (hty : cfg.col_type = ColumnType.MultiplyByFactor src f) (ch1 ch2 : List RowData)
    (h : ch1.map (fun c => (c.enabled, lookupD c.col_data src)) =
      ch2.map (fun c => (c.enabled, lookupD c.col_data src))) :
    colSum cfg ch1 = colSum cfg ch2 := by
  rw [colSum_mbf cfg src f hty, colSum_mbf cfg src f hty, h]

theorem colSum_mbf_filter (cfg : ColumnConfig) (src : ColumnID) (f : ℚ)
    (hty : cfg.col_type = ColumnType.MultiplyByFactor src f) (ch : List RowData) :
    colSum cfg ch =
      ((ch.filter (fun c => c.enabled)).map
        (fun c => lookupD c.col_data src * f)).sum := by
  rw [← sum_if_enabled, colSum, hty]
  congr 1

/-- Values under columns that are not `MultiplyByFactor` targets are
preserved on the children through the whole column loop. -/
theorem applyCols_pairs_not_mbf (cfgs : List ColumnConfig) (k : ColumnID)
    (hk : k ∉ mbfIds cfgs) (r : RowData) :
    (applyCols r cfgs).children.map (fun c => (c.enabled, lookupD c.col_data k)) =
      r.children.map (fun c => (c.enabled, lookupD c.col_data k)) := by
  rw [applyCols_children, List.map_map]
  apply List.map_congr_left
  intro c _
  show (_, lookupD (writeAll cfgs c).col_data k) = _
  rw [writeAll_enabled, lookupD, writeAll_alookup_of_not_mbf cfgs k hk]
  rfl

/-- After the column loop, a `MultiplyByFactor` column of a well-formed
schema stores the child-loop sum over the original children on an interior
row. -/
theorem applyCols_mbf (cfg : ColumnConfig) (src : ColumnID) (f : ℚ)
    (hty : cfg.col_type = ColumnType.MultiplyByFactor src f) :
    ∀ cfgs, cfg ∈ cfgs → (cfgs.map (fun c => c.id)).Nodup → src ∉ mbfIds cfgs →
    ∀ r, r.children ≠ [] →
      alookup (applyCols r cfgs).col_data cfg.id = some (colSum cfg r.children) := by
  intro cfgs
  induction cfgs with
  | nil => intro hmem; simp at hmem
  | cons cfg0 rest ih =>
    intro hmem hnd hsrc r hch
    simp only [List.map_cons, List.nodup_cons] at hnd
    have hchE : r.children.isEmpty = false := by
      cases hc : r.children
      · exact absurd hc hch
      · simp [hc]
    rw [applyCols]
    rcases List.mem_cons.mp hmem with heq | hmemr
    · subst heq
      obtain ⟨h1, _⟩ := applyCols_untouched rest cfg.id hnd.1 (applyCol cfg r)
      rw [h1, applyCol, if_neg (by rw [hchE]; simp)]
      simp only [RowData.col_data_mk]
      rw [alookup_insertA, if_pos rfl]
    · have hchne : (applyCol cfg0 r).children ≠ [] := by
        rw [applyCol_children]
        intro hmm
        exact hch (List.map_eq_nil_iff.mp hmm)
      have h1 := ih hmemr hnd.2 (mbfIds_tail cfg0 rest src hsrc) (applyCol cfg0 r) hchne
      rw [h1]
      congr 1
      apply colSum_mbf_congr cfg src f hty
      rw [applyCol_children, List.map_map]
      apply List.map_congr_left
      intro c _
      show (_, lookupD (childWrite cfg0.col_type cfg0.id c).col_data src) = _
      cases hm : isMulti cfg0.col_type
      · rw [childWrite_of_not_multi _ _ _ hm]
      · have hne0 : cfg0.id ≠ src := by
          intro hh
          apply hsrc
          rw [mbfIds_cons, if_pos hm, ← hh]
          simp
        rw [childWrite_enabled, lookupD,
          childWrite_alookup_ne cfg0.col_type cfg0.id src hne0]
        rfl

/-- Every row that is a child of any node of the recomputed tree stores,
under a `MultiplyByFactor` column of a well-formed schema, factor × its own
source value — the parent's loop writes the scaled value back onto every
child, enabled or not, leaf or not. -/
theorem applyUpdate_mbf_children (cfgs : List ColumnConfig) (cfg : ColumnConfig)
    (src : ColumnID) (f : ℚ) (hmem : cfg ∈ cfgs)
    (hty : cfg.col_type = ColumnType.MultiplyByFactor src f)
    (hnd : (cfgs.map (fun c => c.id)).Nodup) (hsrc : src ∉ mbfIds cfgs) :
    ∀ r, ∀ node ∈ allNodes (applyUpdate r cfgs), ∀ c ∈ node.children,
      lookupD c.col_data cfg.id = lookupD c.col_data src * f := by
  apply RowData.inductionOn (fun r => ∀ node ∈ allNodes (applyUpdate r cfgs),
    ∀ c ∈ node.children, lookupD c.col_data cfg.id = lookupD c.col_data src * f)
  intro n cd ch en ex ed hih node hmemnode c hc
  by_cases hch : ch = []
  · subst hch
    rw [applyUpdate_leaf, allNodes_eq] at hmemnode
    rcases List.mem_cons.mp hmemnode with heq | hmm
    · subst heq
      simp at hc
    · simp [allNodesEach] at hmm
  · rw [applyUpdate, allNodes_eq] at hmemnode
    rcases List.mem_cons.mp hmemnode with heq | hmm
    · -- children of the recomputed root carry the written-back value
      subst heq
      rw [applyCols_children] at hc
      simp only [RowData.children_mk] at hc
      rw [List.mem_map] at hc
      obtain ⟨d, _, rfl⟩ := hc
      have h1 := writeAll_alookup_mbf cfgs cfg src f hmem hty hnd hsrc d
      have h2 : lookupD (writeAll cfgs d).col_data src = lookupD d.col_data src := by
        rw [lookupD, writeAll_alookup_of_not_mbf cfgs src hsrc, ← lookupD]
      rw [h2, lookupD, h1]
      simp
    · rw [applyCols_children] at hmm
      simp only [RowData.children_mk] at hmm
      rw [mem_allNodesEach] at hmm
      obtain ⟨w, hw, hnodew⟩ := hmm
      rw [List.mem_map] at hw
      obtain ⟨d, hd, rfl⟩ := hw
      rw [applyEach_eq_map, List.mem_map] at hd
      obtain ⟨c0, hc0, rfl⟩ := hd
      rw [allNodes_eq] at hnodew
      rcases List.mem_cons.mp hnodew with heqw | hmmw
      · subst heqw
        rw [writeAll_children] at hc
        exact hih c0 hc0 (applyUpdate c0 cfgs) (self_mem_allNodes _) c hc
      · rw [writeAll_children] at hmmw
        apply hih c0 hc0 node _ c hc
        rw [allNodes_eq]
        exact List.mem_cons_of_mem _ hmmw

/-- C2 counterexample: recompute on a childless root is a no-op, so the
leaf's stored `ScaledFrom` value (5) is left as is and does not equal
factor × source (2 × 1): the claim's leaf clause fails on the root. -/
theorem c2_scaled_cex :
    (update exScaleRoot exScaleCfgs).map (fun t => lookupD t.col_data "p") ≠
      (update exScaleRoot exScaleCfgs).map (fun t => lookupD t.col_data "s" * 2) := by
  have h1 : (update exScaleRoot exScaleCfgs).map (fun t => lookupD t.col_data "p") =
      some 5 := by
    simp [update, updateEach, updateCols, colPass, stepChild, exScaleRoot,
      exScaleCfgs, lookupD, alookup, insertA]
  have h2 : (update exScaleRoot exScaleCfgs).map
      (fun t => lookupD t.col_data "s" * 2) = some 2 := by
    simp [update, updateEach, updateCols, colPass, stepChild, exScaleRoot,
      exScaleCfgs, lookupD, alookup, insertA]
  rw [h1, h2]
  intro hcontra
  have : (5 : ℚ) = 2 := by injection hcontra
  norm_num at this

/-- C2 (amended): for a `MultiplyByFactor` column whose source is not itself
a `MultiplyByFactor` column, in a duplicate-free schema: every row that is a
child of another row (in particular every non-root leaf) ends the pass with
scaled value = factor × its own source value, and the root, when it has
children, stores the sum over its enabled children of factor × the child's
source value.  A childless root is never evaluated and keeps its stored
value. -/
theorem c2_scaled (r r' : RowData) (cfgs : List ColumnConfig)
    (cfg : ColumnConfig) (src : ColumnID) (f : ℚ)
    (hup : update r cfgs = some r') (hmem : cfg ∈ cfgs)
    (hty : cfg.col_type = ColumnType.MultiplyByFactor src f)
    (hnd : (cfgs.map (fun c => c.id)).Nodup) (hsrc : src ∉ mbfIds cfgs) :
    (∀ node ∈ allNodes r', ∀ c ∈ node.children,
      lookupD c.col_data cfg.id = lookupD c.col_data src * f) ∧
    (r.children ≠ [] →
      lookupD r'.col_data cfg.id =
        ((r'.children.filter (fun c => c.enabled)).map
          (fun c => lookupD c.col_data src * f)).sum) := by
  by_cases hch : r.children = []
  · rw [update_leaf r cfgs hch] at hup
    have heq : r = r' := by injection hup
    subst heq
    constructor
    · intro node hnode c hc
      rw [allNodes_eq] at hnode
      rcases List.mem_cons.mp hnode with heq | hmm
      · subst heq
        rw [hch] at hc
        simp at hc
      · rw [hch] at hmm
        simp [allNodesEach] at hmm
    · intro hcon
      exact absurd hch hcon
  · cases hrs : hasRowSum cfgs
    · rw [update_eq_applyUpdate cfgs hrs r] at hup
      have heq : applyUpdate r cfgs = r' := by injection hup
      subst heq
      constructor
      · exact applyUpdate_mbf_children cfgs cfg src f hmem hty hnd hsrc r
      · intro _
        cases r with
        | mk n cd ch en ex ed =>
          simp only [RowData.children_mk] at hch
          have hchD : (RowData.mk n cd (applyEach ch cfgs) en ex ed).children ≠ [] := by
            simp only [RowData.children_mk, applyEach_eq_map]
            intro hmm
            exact hch (List.map_eq_nil_iff.mp hmm)
          rw [applyUpdate]
          have h1 := applyCols_mbf cfg src f hty cfgs hmem hnd hsrc _ hchD
          rw [lookupD_of_alookup _ _ _ h1]
          rw [colSum_mbf_congr cfg src f hty _ _
            (applyCols_pairs_not_mbf cfgs src hsrc _).symm]
          exact colSum_mbf_filter cfg src f hty _
    · exfalso
      rw [(update_none_iff r cfgs).mpr ⟨hch, hrs⟩] at hup
      cases hup

/-- Witness for the amended C2: the spec's concrete scenario
(`s` plain, `p = 100 × s`, one leaf child with `s = 1`). -/
theorem c2_scaled_w :
    update exSpecRoot exSpecCfgs = some exSpecOut ∧
    (∀ node ∈ allNodes exSpecOut, ∀ c ∈ node.children,
      lookupD c.col_data "p" = lookupD c.col_data "s" * 100) ∧
    (exSpecRoot.children ≠ [] →
      lookupD exSpecOut.col_data "p" =
        ((exSpecOut.children.filter (fun c => c.enabled)).map
          (fun c => lookupD c.col_data "s" * 100)).sum) := by
  have hup : update exSpecRoot exSpecCfgs = some exSpecOut := by
    simp [update, updateEach, updateCols, colPass, stepChild, exSpecRoot, exSpecCfgs,
      exSpecOut, lookupD, alookup, insertA]
  have h := c2_scaled exSpecRoot exSpecOut exSpecCfgs
    (ColumnConfig.mk "p" "" "" (ColumnType.MultiplyByFactor "s" 100)) "s" 100 hup
    (by simp [exSpecCfgs]) rfl (by simp [exSpecCfgs])
    (by simp [exSpecCfgs, mbfIds, isMulti, List.filter])
  exact ⟨hup, h.1, h.2⟩

/-! ### Disabled rows: contribution removed, storage not frozen -/

theorem rel_applyUpdate (cfgs : List ColumnConfig) (c c' : RowData)
    (h : DisabledLeafVary c c') :
    DisabledLeafVary (applyUpdate c cfgs) (applyUpdate c' cfgs) := by
  rcases h with rfl | hd
  · left
    rfl
  · obtain ⟨he, he', hc, hc', hn, hx, hd'⟩ := hd
    have h1 : applyUpdate c cfgs = c := by
      cases c with
      | mk n cd ch en ex ed =>
        simp only [RowData.children_mk] at hc
        subst hc
        exact applyUpdate_leaf n cd en ex ed cfgs
    have h2 : applyUpdate c' cfgs = c' := by
      cases c' with
      | mk n cd ch en ex ed =>
        simp only [RowData.children_mk] at hc'
        subst hc'
        exact applyUpdate_leaf n cd en ex ed cfgs
    rw [h1, h2]
    right
    exact ⟨he, he', hc, hc', hn, hx, hd'⟩

theorem rel_applyEach (cfgs : List ColumnConfig) :
    ∀ {ch ch' : List RowData}, List.Forall₂ DisabledLeafVary ch ch' →
      List.Forall₂ DisabledLeafVary (applyEach ch cfgs) (applyEach ch' cfgs) := by
  intro ch ch' hrel
  induction hrel with
  | nil => exact List.Forall₂.nil
  | cons ha hl ih =>
    rw [applyEach, applyEach]
    exact List.Forall₂.cons (rel_applyUpdate cfgs _ _ ha) ih

theorem rel_childWrite (ct : ColumnType) (cid : ColumnID) (c c' : RowData)
    (h : DisabledLeafVary c c') :
    DisabledLeafVary (childWrite ct cid c) (childWrite ct cid c') := by
  rcases h with rfl | hd
  · left
    rfl
  · obtain ⟨he, he', hc, hc', hn, hx, hd'⟩ := hd
    right
    refine ⟨?_, ?_, ?_, ?_, ?_, ?_, ?_⟩ <;>
      simp [childWrite_enabled, childWrite_children, childWrite_name,
        childWrite_expanded, childWrite_edit, he, he', hc, hc', hn, hx, hd']

theorem rel_map_childWrite (ct : ColumnType) (cid : ColumnID) :
    ∀ {l l' : List RowData}, List.Forall₂ DisabledLeafVary l l' →
      List.Forall₂ DisabledLeafVary (l.map (childWrite ct cid))
        (l'.map (childWrite ct cid)) := by
  intro l l' hrel
  induction hrel with
  | nil => exact List.Forall₂.nil
  | cons ha hl ih =>
    rw [List.map_cons, List.map_cons]
    exact List.Forall₂.cons (rel_childWrite ct cid _ _ ha) ih

theorem contrib_rel (ct : ColumnType) (cid : ColumnID) (c c' : RowData)
    (h : DisabledLeafVary c c') :
    childContrib ct cid c = childContrib ct cid c' := by
  rcases h with rfl | hd
  · rfl
  · obtain ⟨he, he', _⟩ := hd
    cases ct <;> simp [childContrib, he, he']

theorem colSum_rel (cfg : ColumnConfig) :
    ∀ {ch ch' : List RowData}, List.Forall₂ DisabledLeafVary ch ch' →
      colSum cfg ch = colSum cfg ch' := by
  intro ch ch' hrel
  induction hrel with
  | nil => rfl
  | cons ha hl ih =>
    rw [colSum, colSum, List.map_cons, List.map_cons, List.sum_cons, List.sum_cons]
    rw [contrib_rel cfg.col_type cfg.id _ _ ha]
    rw [colSum, colSum] at ih
    rw [ih]

theorem applyCols_cd_rel (cfgs : List ColumnConfig) :
    ∀ (n : String) (cd : ColData) (en ex ed : Bool) (ch ch' : List RowData),
      List.Forall₂ DisabledLeafVary ch ch' →
      (applyCols (RowData.mk n cd ch en ex ed) cfgs).col_data =
        (applyCols (RowData.mk n cd ch' en ex ed) cfgs).col_data := by
  induction cfgs with
  | nil => intro n cd en ex ed ch ch' _; rfl
  | cons cfg rest ih =>
    intro n cd en ex ed ch ch' hrel
    cases hrel with
    | nil => rfl
    | cons ha hl =>
      rw [applyCols, applyCols]
      rw [applyCol, applyCol]
      simp only [RowData.children_mk, List.isEmpty_cons, if_false,
        RowData.name_mk, RowData.col_data_mk, RowData.enabled_mk,
        RowData.expanded_mk, RowData.edit_name_mk]
      rw [colSum_rel cfg (List.Forall₂.cons ha hl)]
      exact ih n _ en ex ed _ _ (rel_map_childWrite cfg.col_type cfg.id
        (List.Forall₂.cons ha hl))

/-- C9 counterexample: a recompute pass does change a disabled row's own
stored values — the parent's loop writes the scaled value back onto a
disabled leaf child (stored `b = 99` becomes `b = 2 × a = 2`). -/
theorem c9_disabled_frozen_cex :
    exDisabledRoot.children.map (fun c => lookupD c.col_data "b") = [99] ∧
    (update exDisabledRoot exScalebCfgs).map
      (fun t => t.children.map (fun c => lookupD c.col_data "b")) = some [2] := by
  constructor
  · simp [exDisabledRoot, lookupD, alookup]
  · simp [update, updateEach, updateCols, colPass, stepChild, exDisabledRoot,
      exScalebCfgs, lookupD, alookup, insertA]

/-- C9 (amended): disabling a row removes its contribution from its parent's
sums — the parent's stored values after a pass are independent of everything
a disabled leaf child stores — but the pass does not leave disabled rows
untouched: `MultiplyByFactor` columns are written back onto disabled children
too, and a disabled interior row's own sums are still recomputed. -/
theorem c9_disabled_independence (n : String) (cd : ColData) (en ex ed : Bool)
    (ch ch' : List RowData) (cfgs : List ColumnConfig)
    (hrel : List.Forall₂ DisabledLeafVary ch ch') :
    (update (RowData.mk n cd ch en ex ed) cfgs).map (fun t => t.col_data) =
      (update (RowData.mk n cd ch' en ex ed) cfgs).map (fun t => t.col_data) := by
  by_cases hch : ch = []
  · subst hch
    cases hrel
    rfl
  · have hch' : ch' ≠ [] := by
      intro hh
      subst hh
      cases hrel
      exact hch rfl
    cases hrs : hasRowSum cfgs
    · rw [update_eq_applyUpdate cfgs hrs, update_eq_applyUpdate cfgs hrs]
      show some ((applyUpdate (RowData.mk n cd ch en ex ed) cfgs).col_data) =
        some ((applyUpdate (RowData.mk n cd ch' en ex ed) cfgs).col_data)
      congr 1
      rw [applyUpdate, applyUpdate]
      exact applyCols_cd_rel cfgs n cd en ex ed _ _ (rel_applyEach cfgs hrel)
    · rw [(update_none_iff _ cfgs).mpr ⟨by simpa using hch, hrs⟩,
        (update_none_iff _ cfgs).mpr ⟨by simpa using hch', hrs⟩]

/-- Witness for the amended C9: two parents whose single disabled leaf child
stores different data produce the same parent `col_data`. -/
theorem c9_disabled_independence_w :
    (update (RowData.mk "r" [] exDisChA true false false) exNumCfgs).map
        (fun t => t.col_data) =
      (update (RowData.mk "r" [] exDisChB true false false) exNumCfgs).map
        (fun t => t.col_data) :=
  c9_disabled_independence "r" [] true false false exDisChA exDisChB exNumCfgs
    (List.Forall₂.cons (Or.inr ⟨rfl, rfl, rfl, rfl, rfl, rfl, rfl⟩) List.Forall₂.nil)

/-! ### Decomposition of the column loop on a well-formed schema -/

theorem RowData.ext2 (r r' : RowData) (h1 : r.name = r'.name)
    (h2 : r.col_data = r'.col_data) (h3 : r.children = r'.children)
    (h4 : r.enabled = r'.enabled) (h5 : r.expanded = r'.expanded)
    (h6 : r.edit_name = r'.edit_name) : r = r' := by
  cases r with
  | mk n cd ch en ex ed =>
    cases r' with
    | mk n' cd' ch' en' ex' ed' =>
      simp at h1 h2 h3 h4 h5 h6
      subst h1
      subst h2
      subst h3
      subst h4
      subst h5
      subst h6
      rfl

theorem applyUpdate_expanded (cfgs : List ColumnConfig) (r : RowData) :
    (applyUpdate r cfgs).expanded = r.expanded := by
  cases r with
  | mk n cd ch en ex ed => rw [applyUpdate, applyCols_expanded]; simp

theorem applyUpdate_edit (cfgs : List ColumnConfig) (r : RowData) :
    (applyUpdate r cfgs).edit_name = r.edit_name := by
  cases r with
  | mk n cd ch en ex ed => rw [applyUpdate, applyCols_edit]; simp

theorem map_writeAll_nil (l : List RowData) : l.map (writeAll []) = l := by
  induction l with
  | nil => rfl
  | cons c cs ihc =>
    rw [List.map_cons, ihc]
    rfl

/-- In a well-formed schema, no column's write onto a child changes any other
column's contribution (nor its own): writes land on `MultiplyByFactor` ids,
and no contribution reads a `MultiplyByFactor` id. -/
theorem childContrib_childWrite (cfgs : List ColumnConfig) (hg : goodCfgs cfgs) :
    ∀ cfg1 ∈ cfgs, ∀ cfg2 ∈ cfgs, ∀ c : RowData,
      childContrib cfg1.col_type cfg1.id (childWrite cfg2.col_type cfg2.id c) =
        childContrib cfg1.col_type cfg1.id c := by
  intro cfg1 h1 cfg2 h2 c
  cases hm2 : isMulti cfg2.col_type
  · rw [childWrite_of_not_multi _ _ _ hm2]
  · cases hct2 : cfg2.col_type with
    | MultiplyByFactor s2 f2 =>
      have hid2 : cfg2.id ∈ mbfIds cfgs := mem_mbfIds cfgs cfg2 h2 s2 f2 hct2
      cases hct1 : cfg1.col_type with
      | Number =>
        have hne : cfg2.id ≠ cfg1.id := by
          intro hh
          have heq : cfg2 = cfg1 := id_inj cfgs hg.1 cfg2 cfg1 h2 h1 hh
          rw [heq, hct1] at hct2
          cases hct2
        simp only [childContrib, childWrite_enabled]
        rw [lookupD, childWrite_alookup_ne _ _ _ hne, ← lookupD]
      | Text => rfl
      | RowSum l => rfl
      | MultiplyByFactor s1 f1 =>
        have hs1 : s1 ∉ mbfIds cfgs := hg.2 cfg1 h1 s1 f1 hct1
        have hne : cfg2.id ≠ s1 := fun hh => hs1 (hh ▸ hid2)
        simp only [childContrib, childWrite_enabled]
        rw [lookupD, childWrite_alookup_ne _ _ _ hne, ← lookupD]
    | Number => rw [hct2] at hm2; simp [isMulti] at hm2
    | Text => rw [hct2] at hm2; simp [isMulti] at hm2
    | RowSum l => rw [hct2] at hm2; simp [isMulti] at hm2

theorem colSum_map_congr (cfg : ColumnConfig) (g : RowData → RowData)
    (ch : List RowData)
    (h : ∀ c ∈ ch, childContrib cfg.col_type cfg.id (g c) =
      childContrib cfg.col_type cfg.id c) :
    colSum cfg (ch.map g) = colSum cfg ch := by
  rw [colSum, colSum, List.map_map]
  congr 1
  apply List.map_congr_left
  intro c hc
  exact h c hc

theorem foldInserts_congr (cfgs : List ColumnConfig) :
    ∀ (ch1 ch2 : List RowData), (∀ cfg ∈ cfgs, colSum cfg ch1 = colSum cfg ch2) →
    ∀ m, foldInserts cfgs ch1 m = foldInserts cfgs ch2 m := by
  induction cfgs with
  | nil => intro ch1 ch2 _ m; rfl
  | cons cfg rest ih =>
    intro ch1 ch2 h m
    rw [foldInserts, foldInserts, h cfg (by simp)]
    exact ih ch1 ch2 (fun c hc => h c (by simp [hc])) _

/-- The column loop on an interior row of a well-formed schema decomposes
into: parent `col_data` gathers every column's sum over the *original*
children; each child receives all its `MultiplyByFactor` write-backs. -/
theorem applyCols_decomp (cfgs : List ColumnConfig)
    (hinv : ∀ cfg1 ∈ cfgs, ∀ cfg2 ∈ cfgs, ∀ c : RowData,
      childContrib cfg1.col_type cfg1.id (childWrite cfg2.col_type cfg2.id c) =
        childContrib cfg1.col_type cfg1.id c) :
    ∀ (n : String) (m : ColData) (ch : List RowData) (en ex ed : Bool), ch ≠ [] →
      applyCols (RowData.mk n m ch en ex ed) cfgs =
        RowData.mk n (foldInserts cfgs ch m) (ch.map (writeAll cfgs)) en ex ed := by
  induction cfgs with
  | nil =>
    intro n m ch en ex ed _
    rw [foldInserts, map_writeAll_nil]
    rfl
  | cons cfg rest ih =>
    intro n m ch en ex ed hch
    have hchE : (RowData.mk n m ch en ex ed).children.isEmpty = false := by
      simp only [RowData.children_mk]
      cases hc : ch
      · exact absurd hc hch
      · simp
    have happ : applyCol cfg (RowData.mk n m ch en ex ed) =
        RowData.mk n (insertA m cfg.id (colSum cfg ch))
          (ch.map (childWrite cfg.col_type cfg.id)) en ex ed := by
      rw [applyCol, if_neg (by rw [hchE]; simp)]
      simp
    have hinvr : ∀ cfg1 ∈ rest, ∀ cfg2 ∈ rest, ∀ c : RowData,
        childContrib cfg1.col_type cfg1.id (childWrite cfg2.col_type cfg2.id c) =
          childContrib cfg1.col_type cfg1.id c := by
      intro cfg1 h1 cfg2 h2 c
      exact hinv cfg1 (by simp [h1]) cfg2 (by simp [h2]) c
    have hchmap : ch.map (childWrite cfg.col_type cfg.id) ≠ [] := by
      intro hmm
      exact hch (List.map_eq_nil_iff.mp hmm)
    rw [applyCols, happ, ih hinvr n _ _ en ex ed hchmap]
    have hsums : ∀ cfg' ∈ rest,
        colSum cfg' (ch.map (childWrite cfg.col_type cfg.id)) = colSum cfg' ch := by
      intro cfg' hc'
      exact colSum_map_congr cfg' _ ch
        (fun c _ => hinv cfg' (by simp [hc']) cfg (by simp) c)
    rw [foldInserts_congr rest _ _ hsums]
    show RowData.mk n (foldInserts rest ch (insertA m cfg.id (colSum cfg ch))) _ en ex ed = _
    rw [foldInserts, List.map_map]
    congr 1

/-- `applyUpdate` on an interior row of a well-formed schema, decomposed. -/
theorem applyUpdate_decomp (cfgs : List ColumnConfig)
    (hinv : ∀ cfg1 ∈ cfgs, ∀ cfg2 ∈ cfgs, ∀ c : RowData,
      childContrib cfg1.col_type cfg1.id (childWrite cfg2.col_type cfg2.id c) =
        childContrib cfg1.col_type cfg1.id c)
    (n : String) (cd : ColData) (ch : List RowData) (en ex ed : Bool)
    (hch : ch ≠ []) :
    applyUpdate (RowData.mk n cd ch en ex ed) cfgs =
      RowData.mk n (foldInserts cfgs (applyEach ch cfgs) cd)
        ((applyEach ch cfgs).map (writeAll cfgs)) en ex ed := by
  rw [applyUpdate]
  apply applyCols_decomp cfgs hinv
  rw [applyEach_eq_map]
  intro hmm
  exact hch (List.map_eq_nil_iff.mp hmm)

/-! ### Key sets through the pass -/

theorem insertA_mem_key (m : ColData) (k : ColumnID) (v : ℚ) :
    k ∈ (insertA m k v).map Prod.fst := by
  rw [← alookup_isSome_iff, alookup_insertA, if_pos rfl]
  rfl

theorem insertA_keys_mono (m : ColData) (k : ColumnID) (v : ℚ) (k' : ColumnID)
    (h : k' ∈ m.map Prod.fst) : k' ∈ (insertA m k v).map Prod.fst := by
  by_cases hk : k ∈ m.map Prod.fst
  · rw [insertA_keys_of_mem m k v hk]
    exact h
  · rw [insertA_keys_of_not_mem m k v hk]
    exact List.mem_append_left _ h

theorem foldInserts_ids_present (cfgs : List ColumnConfig)
    (hnd : (cfgs.map (fun c => c.id)).Nodup) :
    ∀ cfg ∈ cfgs, ∀ ch m, cfg.id ∈ (foldInserts cfgs ch m).map Prod.fst := by
  intro cfg hmem ch m
  rw [← alookup_isSome_iff, foldInserts_alookup_mem cfgs cfg hmem hnd ch m]
  rfl

theorem foldInserts_keys_of_present (cfgs : List ColumnConfig) :
    ∀ m, (∀ cfg ∈ cfgs, cfg.id ∈ m.map Prod.fst) → ∀ ch,
      (foldInserts cfgs ch m).map Prod.fst = m.map Prod.fst := by
  induction cfgs with
  | nil => intro m _ ch; rfl
  | cons cfg rest ih =>
    intro m hpres ch
    rw [foldInserts]
    have hkeys : (insertA m cfg.id (colSum cfg ch)).map Prod.fst = m.map Prod.fst :=
      insertA_keys_of_mem m cfg.id _ (hpres cfg (by simp))
    rw [ih _ (fun c hc => by rw [hkeys]; exact hpres c (by simp [hc])) ch, hkeys]

theorem foldInserts_nodup (cfgs : List ColumnConfig) :
    ∀ m, (m.map Prod.fst).Nodup → ∀ ch,
      ((foldInserts cfgs ch m).map Prod.fst).Nodup := by
  induction cfgs with
  | nil => intro m h ch; exact h
  | cons cfg rest ih =>
    intro m h ch
    rw [foldInserts]
    exact ih _ (insertA_nodup m cfg.id _ h) ch

theorem writeAll_keys_of_present (cfgs : List ColumnConfig) :
    ∀ c : RowData, (∀ cfg ∈ cfgs, isMulti cfg.col_type = true →
      cfg.id ∈ c.col_data.map Prod.fst) →
      (writeAll cfgs c).col_data.map Prod.fst = c.col_data.map Prod.fst := by
  induction cfgs with
  | nil => intro c _; rfl
  | cons cfg rest ih =>
    intro c hpres
    rw [writeAll]
    cases hm : isMulti cfg.col_type
    · rw [childWrite_of_not_multi _ _ _ hm]
      exact ih c (fun c' hc' hm' => hpres c' (by simp [hc']) hm')
    · cases hct : cfg.col_type with
      | MultiplyByFactor src f =>
        have hkeys : (childWrite (ColumnType.MultiplyByFactor src f) cfg.id c).col_data.map
            Prod.fst = c.col_data.map Prod.fst := by
          rw [childWrite_col_data]
          exact insertA_keys_of_mem _ _ _ (hpres cfg (by simp) hm)
        rw [ih _ (fun c' hc' hm' => by rw [hkeys]; exact hpres c' (by simp [hc']) hm')]
        exact hkeys
      | Number => rw [hct] at hm; simp [isMulti] at hm
      | Text => rw [hct] at hm; simp [isMulti] at hm
      | RowSum l => rw [hct] at hm; simp [isMulti] at hm

theorem writeAll_nodup (cfgs : List ColumnConfig) :
    ∀ c : RowData, (c.col_data.map Prod.fst).Nodup →
      ((writeAll cfgs c).col_data.map Prod.fst).Nodup := by
  induction cfgs with
  | nil => intro c h; exact h
  | cons cfg rest ih =>
    intro c h
    rw [writeAll]
    apply ih
    cases hm : isMulti cfg.col_type
    · rw [childWrite_of_not_multi _ _ _ hm]
      exact h
    · cases hct : cfg.col_type with
      | MultiplyByFactor src f =>
        rw [childWrite_col_data]
        exact insertA_nodup _ _ _ h
      | Number => rw [hct] at hm; simp [isMulti] at hm
      | Text => rw [hct] at hm; simp [isMulti] at hm
      | RowSum l => rw [hct] at hm; simp [isMulti] at hm

theorem mbf_of_mem_mbfIds (cfgs : List ColumnConfig) (k : ColumnID)
    (h : k ∈ mbfIds cfgs) :
    ∃ cfg ∈ cfgs, cfg.id = k ∧ ∃ src f, cfg.col_type = ColumnType.MultiplyByFactor src f := by
  simp only [mbfIds, List.mem_map, List.mem_filter] at h
  obtain ⟨cfg, ⟨hmem, hmul⟩, hid⟩ := h
  refine ⟨cfg, hmem, hid, ?_⟩
  cases hct : cfg.col_type with
  | MultiplyByFactor src f => exact ⟨src, f, rfl⟩
  | Number => rw [hct] at hmul; simp [isMulti] at hmul
  | Text => rw [hct] at hmul; simp [isMulti] at hmul
  | RowSum l => rw [hct] at hmul; simp [isMulti] at hmul

theorem foldInserts_id (cfgs : List ColumnConfig) :
    ∀ m ch, (∀ cfg ∈ cfgs, alookup m cfg.id = some (colSum cfg ch)) →
      foldInserts cfgs ch m = m := by
  induction cfgs with
  | nil => intro m ch _; rfl
  | cons cfg rest ih =>
    intro m ch h
    rw [foldInserts, insertA_same m cfg.id _ (h cfg (by simp))]
    exact ih m ch (fun c hc => h c (by simp [hc]))

/-- Contributions only read the enabled flag and values under non-scaled
keys, so they agree on rows that agree there. -/
theorem childContrib_congr_lookups (cfgs : List ColumnConfig) (hg : goodCfgs cfgs)
    (cfg : ColumnConfig) (hmem : cfg ∈ cfgs) (a b : RowData)
    (hen : a.enabled = b.enabled)
    (hlook : ∀ k, k ∉ mbfIds cfgs → alookup a.col_data k = alookup b.col_data k) :
    childContrib cfg.col_type cfg.id a = childContrib cfg.col_type cfg.id b := by
  cases hct : cfg.col_type with
  | Number =>
    have hnm : cfg.id ∉ mbfIds cfgs := number_id_not_mbf cfgs hg.1 cfg hmem hct
    simp only [childContrib]
    rw [hen, lookupD, hlook cfg.id hnm, ← lookupD]
  | Text => rfl
  | RowSum l => rfl
  | MultiplyByFactor src f =>
    have hs : src ∉ mbfIds cfgs := hg.2 cfg hmem src f hct
    simp only [childContrib]
    rw [hen, lookupD, hlook src hs, ← lookupD]

theorem nodupKeysEach_mem : ∀ (ch : List RowData), nodupKeysEach ch →
    ∀ c ∈ ch, nodupKeys c := by
  intro ch
  induction ch with
  | nil => intro _ c hc; simp at hc
  | cons a l ih =>
    intro h c hc
    rw [nodupKeysEach] at h
    rcases List.mem_cons.mp hc with rfl | hc'
    · exact h.1
    · exact ih h.2 c hc'

theorem nodupKeys_mk (n : String) (cd : ColData) (ch : List RowData)
    (en ex ed : Bool) :
    nodupKeys (RowData.mk n cd ch en ex ed) ↔
      (cd.map Prod.fst).Nodup ∧ nodupKeysEach ch := by
  rw [nodupKeys]

theorem applyUpdate_leaf2 (r : RowData) (h : r.children = [])
    (cfgs : List ColumnConfig) : applyUpdate r cfgs = r := by
  cases r with
  | mk n cd ch en ex ed =>
    simp only [RowData.children_mk] at h
    subst h
    exact applyUpdate_leaf n cd en ex ed cfgs

theorem applyUpdate_decomp2 (cfgs : List ColumnConfig)
    (hinv : ∀ cfg1 ∈ cfgs, ∀ cfg2 ∈ cfgs, ∀ c : RowData,
      childContrib cfg1.col_type cfg1.id (childWrite cfg2.col_type cfg2.id c) =
        childContrib cfg1.col_type cfg1.id c)
    (r : RowData) (hch : r.children ≠ []) :
    applyUpdate r cfgs = RowData.mk r.name
      (foldInserts cfgs (applyEach r.children cfgs) r.col_data)
      ((applyEach r.children cfgs).map (writeAll cfgs))
      r.enabled r.expanded r.edit_name := by
  cases r with
  | mk n cd ch en ex ed =>
    simp only [RowData.children_mk] at hch
    simp only [RowData.name_mk, RowData.col_data_mk, RowData.children_mk,
      RowData.enabled_mk, RowData.expanded_mk, RowData.edit_name_mk]
    exact applyUpdate_decomp cfgs hinv n cd ch en ex ed hch

/-- Writing all scaled columns onto a row is idempotent when the schema is
well formed. -/
theorem writeAll_idem (cfgs : List ColumnConfig) (hg : goodCfgs cfgs)
    (c : RowData) (hwfc : (c.col_data.map Prod.fst).Nodup) :
    writeAll cfgs (writeAll cfgs c) = writeAll cfgs c := by
  apply RowData.ext2
  · rw [writeAll_name]
  · apply alookup_ext
    · apply writeAll_keys_of_present
      intro cfg hmem hmul
      cases hct : cfg.col_type with
      | MultiplyByFactor src f =>
        have hsrc : src ∉ mbfIds cfgs := hg.2 cfg hmem src f hct
        rw [← alookup_isSome_iff,
          writeAll_alookup_mbf cfgs cfg src f hmem hct hg.1 hsrc c]
        rfl
      | Number => rw [hct] at hmul; simp [isMulti] at hmul
      | Text => rw [hct] at hmul; simp [isMulti] at hmul
      | RowSum l => rw [hct] at hmul; simp [isMulti] at hmul
    · exact writeAll_nodup cfgs _ (writeAll_nodup cfgs c hwfc)
    · intro k
      by_cases hk : k ∈ mbfIds cfgs
      · obtain ⟨cfg, hmem, hid, src, f, hct⟩ := mbf_of_mem_mbfIds cfgs k hk
        subst hid
        have hsrc : src ∉ mbfIds cfgs := hg.2 cfg hmem src f hct
        rw [writeAll_alookup_mbf cfgs cfg src f hmem hct hg.1 hsrc (writeAll cfgs c),
          writeAll_alookup_mbf cfgs cfg src f hmem hct hg.1 hsrc c]
        have hsv : lookupD (writeAll cfgs c).col_data src = lookupD c.col_data src := by
          rw [lookupD, writeAll_alookup_of_not_mbf cfgs src hsrc, ← lookupD]
        rw [hsv]
      · rw [writeAll_alookup_of_not_mbf cfgs k hk]
  · rw [writeAll_children, writeAll_children]
  · rw [writeAll_enabled, writeAll_enabled]
  · rw [writeAll_expanded, writeAll_expanded]
  · rw [writeAll_edit, writeAll_edit]

/-- After one pass, running the pass again on a recomputed child (followed by
the parent's write-backs) reproduces the child exactly, and does not change
any of its non-scaled values. -/
theorem pass2_stable (cfgs : List ColumnConfig) (hg : goodCfgs cfgs) :
    ∀ c : RowData, nodupKeys c →
      (∀ k, k ∉ mbfIds cfgs →
        alookup (applyUpdate (writeAll cfgs (applyUpdate c cfgs)) cfgs).col_data k =
          alookup (writeAll cfgs (applyUpdate c cfgs)).col_data k) ∧
      writeAll cfgs (applyUpdate (writeAll cfgs (applyUpdate c cfgs)) cfgs) =
        writeAll cfgs (applyUpdate c cfgs) := by
  have hinv := childContrib_childWrite cfgs hg
  apply RowData.inductionOn (fun c => nodupKeys c →
    (∀ k, k ∉ mbfIds cfgs →
      alookup (applyUpdate (writeAll cfgs (applyUpdate c cfgs)) cfgs).col_data k =
        alookup (writeAll cfgs (applyUpdate c cfgs)).col_data k) ∧
    writeAll cfgs (applyUpdate (writeAll cfgs (applyUpdate c cfgs)) cfgs) =
      writeAll cfgs (applyUpdate c cfgs))
  intro n cd ch en ex ed hih hwf
  by_cases hch : ch = []
  · subst hch
    rw [applyUpdate_leaf]
    have hwleaf : (writeAll cfgs (RowData.mk n cd [] en ex ed)).children = [] := by
      rw [writeAll_children]
      rfl
    rw [applyUpdate_leaf2 _ hwleaf cfgs]
    refine ⟨fun k _ => rfl, ?_⟩
    exact writeAll_idem cfgs hg _ ((nodupKeys_mk n cd [] en ex ed).mp hwf).1
  · have hwf1 : (cd.map Prod.fst).Nodup := ((nodupKeys_mk n cd ch en ex ed).mp hwf).1
    have hwfch : ∀ c ∈ ch, nodupKeys c :=
      nodupKeysEach_mem ch ((nodupKeys_mk n cd ch en ex ed).mp hwf).2
    have hchD : applyEach ch cfgs ≠ [] := by
      rw [applyEach_eq_map]
      exact fun hmm => hch (List.map_eq_nil_iff.mp hmm)
    have hd_eq : applyUpdate (RowData.mk n cd ch en ex ed) cfgs =
        RowData.mk n (foldInserts cfgs (applyEach ch cfgs) cd)
          ((applyEach ch cfgs).map (writeAll cfgs)) en ex ed :=
      applyUpdate_decomp cfgs hinv n cd ch en ex ed hch
    set D := applyEach ch cfgs with hD
    set M := foldInserts cfgs D cd with hM
    set Dw := D.map (writeAll cfgs) with hDw
    rw [hd_eq]
    have hchildfacts : ∀ dd ∈ D, ((∀ k, k ∉ mbfIds cfgs →
        alookup (applyUpdate (writeAll cfgs dd) cfgs).col_data k =
          alookup dd.col_data k) ∧
        writeAll cfgs (applyUpdate (writeAll cfgs dd) cfgs) = writeAll cfgs dd) := by
      intro dd hdd
      rw [hD, applyEach_eq_map] at hdd
      obtain ⟨ci, hci, rfl⟩ := List.mem_map.mp hdd
      obtain ⟨p1, p2⟩ := hih ci hci (hwfch ci hci)
      refine ⟨?_, p2⟩
      intro k hk
      rw [p1 k hk, writeAll_alookup_of_not_mbf cfgs k hk]
    set x := writeAll cfgs (RowData.mk n M Dw en ex ed) with hx
    have hxch : x.children = Dw := by
      rw [hx, writeAll_children]
      rfl
    have hDwne : Dw ≠ [] := by
      rw [hDw]
      exact fun hmm => hchD (List.map_eq_nil_iff.mp hmm)
    have hxchne : x.children ≠ [] := by
      rw [hxch]
      exact hDwne
    have hy_eq : applyUpdate x cfgs = RowData.mk x.name
        (foldInserts cfgs (applyEach Dw cfgs) x.col_data)
        ((applyEach Dw cfgs).map (writeAll cfgs))
        x.enabled x.expanded x.edit_name := by
      have h0 := applyUpdate_decomp2 cfgs hinv x hxchne
      rw [hxch] at h0
      exact h0
    have hX2 : applyEach Dw cfgs =
        D.map (fun dd => applyUpdate (writeAll cfgs dd) cfgs) := by
      rw [applyEach_eq_map, hDw, List.map_map]
      rfl
    have hsums : ∀ cfg' ∈ cfgs, colSum cfg' (applyEach Dw cfgs) = colSum cfg' D := by
      intro cfg' hm'
      rw [hX2]
      apply colSum_map_congr
      intro dd hdd
      apply childContrib_congr_lookups cfgs hg cfg' hm'
      · rw [applyUpdate_enabled, writeAll_enabled]
      · intro k hk
        exact (hchildfacts dd hdd).1 k hk
    have hxcd_nm : ∀ k, k ∉ mbfIds cfgs → alookup x.col_data k = alookup M k := by
      intro k hk
      rw [hx, writeAll_alookup_of_not_mbf cfgs k hk]
      rfl
    have hMpres : ∀ cfg ∈ cfgs, cfg.id ∈ M.map Prod.fst := by
      intro cfg hm'
      rw [hM]
      exact foldInserts_ids_present cfgs hg.1 cfg hm' D cd
    have hMnodup : (M.map Prod.fst).Nodup := by
      rw [hM]
      exact foldInserts_nodup cfgs cd hwf1 D
    have hxkeys : x.col_data.map Prod.fst = M.map Prod.fst := by
      rw [hx]
      have h0 := writeAll_keys_of_present cfgs (RowData.mk n M Dw en ex ed)
        (by intro cfg hm' _; simp only [RowData.col_data_mk]; exact hMpres cfg hm')
      simpa using h0
    have hxnodup : (x.col_data.map Prod.fst).Nodup := by
      rw [hxkeys]
      exact hMnodup
    have hxpres : ∀ cfg ∈ cfgs, cfg.id ∈ x.col_data.map Prod.fst := by
      intro cfg hm'
      rw [hxkeys]
      exact hMpres cfg hm'
    have hp1 : ∀ k, k ∉ mbfIds cfgs →
        alookup (applyUpdate x cfgs).col_data k = alookup x.col_data k := by
      intro k hk
      rw [hy_eq]
      simp only [RowData.col_data_mk]
      by_cases hkid : k ∈ cfgs.map (fun c0 => c0.id)
      · obtain ⟨cfg', hmem', hid'⟩ := List.mem_map.mp hkid
        subst hid'
        rw [foldInserts_alookup_mem cfgs cfg' hmem' hg.1 _ _]
        have hxv : alookup x.col_data cfg'.id = some (colSum cfg' D) := by
          rw [hxcd_nm cfg'.id hk, hM]
          exact foldInserts_alookup_mem cfgs cfg' hmem' hg.1 D cd
        rw [hxv, hsums cfg' hmem']
      · rw [foldInserts_alookup_of_not_mem cfgs k hkid]
    refine ⟨hp1, ?_⟩
    have hykeys : (applyUpdate x cfgs).col_data.map Prod.fst =
        x.col_data.map Prod.fst := by
      rw [hy_eq]
      simp only [RowData.col_data_mk]
      exact foldInserts_keys_of_present cfgs x.col_data hxpres _
    have hych : (applyUpdate x cfgs).children = Dw := by
      rw [hy_eq]
      simp only [RowData.children_mk]
      rw [hX2, List.map_map, hDw]
      apply List.map_congr_left
      intro dd hdd
      exact (hchildfacts dd hdd).2
    apply RowData.ext2
    · rw [writeAll_name, hy_eq]
      simp only [RowData.name_mk]
    · apply alookup_ext
      · have h1 : (writeAll cfgs (applyUpdate x cfgs)).col_data.map Prod.fst =
            (applyUpdate x cfgs).col_data.map Prod.fst := by
          apply writeAll_keys_of_present
          intro cfg hm' _
          rw [hykeys]
          exact hxpres cfg hm'
        rw [h1, hykeys]
      · have h1 : (writeAll cfgs (applyUpdate x cfgs)).col_data.map Prod.fst =
            (applyUpdate x cfgs).col_data.map Prod.fst := by
          apply writeAll_keys_of_present
          intro cfg hm' _
          rw [hykeys]
          exact hxpres cfg hm'
        rw [h1, hykeys]
        exact hxnodup
      · intro k
        by_cases hk : k ∈ mbfIds cfgs
        · obtain ⟨cfg', hmem', hid', src', f', hct'⟩ := mbf_of_mem_mbfIds cfgs k hk
          subst hid'
          have hsrc' : src' ∉ mbfIds cfgs := hg.2 cfg' hmem' src' f' hct'
          rw [writeAll_alookup_mbf cfgs cfg' src' f' hmem' hct' hg.1 hsrc'
            (applyUpdate x cfgs)]
          rw [hx, writeAll_alookup_mbf cfgs cfg' src' f' hmem' hct' hg.1 hsrc'
            (RowData.mk n M Dw en ex ed)]
          have hy_src : lookupD (applyUpdate x cfgs).col_data src' =
              lookupD M src' := by
            rw [lookupD, hp1 src' hsrc', hxcd_nm src' hsrc', ← lookupD]
          rw [hy_src]
          simp only [RowData.col_data_mk]
        · rw [writeAll_alookup_of_not_mbf cfgs k hk, hp1 k hk]
    · rw [writeAll_children, hych, hxch]
    · rw [writeAll_enabled, hy_eq]
      simp only [RowData.enabled_mk]
    · rw [writeAll_expanded, hy_eq]
      simp only [RowData.expanded_mk]
    · rw [writeAll_edit, hy_eq]
      simp only [RowData.edit_name_mk]

/-- On a well-formed schema, the pure pass is idempotent. -/
theorem applyUpdate_idem (cfgs : List ColumnConfig) (hg : goodCfgs cfgs)
    (r : RowData) (hwf : nodupKeys r) :
    applyUpdate (applyUpdate r cfgs) cfgs = applyUpdate r cfgs := by
  have hinv := childContrib_childWrite cfgs hg
  cases r with
  | mk n cd ch en ex ed =>
    by_cases hch : ch = []
    · subst hch
      rw [applyUpdate_leaf, applyUpdate_leaf]
    · have hwfch : ∀ c ∈ ch, nodupKeys c :=
        nodupKeysEach_mem ch ((nodupKeys_mk n cd ch en ex ed).mp hwf).2
      have hchD : applyEach ch cfgs ≠ [] := by
        rw [applyEach_eq_map]
        exact fun hmm => hch (List.map_eq_nil_iff.mp hmm)
      have hd_eq : applyUpdate (RowData.mk n cd ch en ex ed) cfgs =
          RowData.mk n (foldInserts cfgs (applyEach ch cfgs) cd)
            ((applyEach ch cfgs).map (writeAll cfgs)) en ex ed :=
        applyUpdate_decomp cfgs hinv n cd ch en ex ed hch
      set D := applyEach ch cfgs with hD
      set M := foldInserts cfgs D cd with hM
      set Dw := D.map (writeAll cfgs) with hDw
      rw [hd_eq]
      have hchildfacts : ∀ dd ∈ D, ((∀ k, k ∉ mbfIds cfgs →
          alookup (applyUpdate (writeAll cfgs dd) cfgs).col_data k =
            alookup dd.col_data k) ∧
          writeAll cfgs (applyUpdate (writeAll cfgs dd) cfgs) = writeAll cfgs dd) := by
        intro dd hdd
        rw [hD, applyEach_eq_map] at hdd
        obtain ⟨ci, hci, rfl⟩ := List.mem_map.mp hdd
        obtain ⟨p1, p2⟩ := pass2_stable cfgs hg ci (hwfch ci hci)
        refine ⟨?_, p2⟩
        intro k hk
        rw [p1 k hk, writeAll_alookup_of_not_mbf cfgs k hk]
      have hDwne : Dw ≠ [] := by
        rw [hDw]
        exact fun hmm => hchD (List.map_eq_nil_iff.mp hmm)
      have hd2_eq : applyUpdate (RowData.mk n M Dw en ex ed) cfgs =
          RowData.mk n (foldInserts cfgs (applyEach Dw cfgs) M)
            ((applyEach Dw cfgs).map (writeAll cfgs)) en ex ed :=
        applyUpdate_decomp cfgs hinv n M Dw en ex ed hDwne
      rw [hd2_eq]
      have hX2 : applyEach Dw cfgs =
          D.map (fun dd => applyUpdate (writeAll cfgs dd) cfgs) := by
        rw [applyEach_eq_map, hDw, List.map_map]
        rfl
      have hsums : ∀ cfg' ∈ cfgs, colSum cfg' (applyEach Dw cfgs) = colSum cfg' D := by
        intro cfg' hm'
        rw [hX2]
        apply colSum_map_congr
        intro dd hdd
        apply childContrib_congr_lookups cfgs hg cfg' hm'
        · rw [applyUpdate_enabled, writeAll_enabled]
        · intro k hk
          exact (hchildfacts dd hdd).1 k hk
      have h1 : foldInserts cfgs (applyEach Dw cfgs) M = M := by
        apply foldInserts_id
        intro cfg hm'
        rw [hsums cfg hm', hM]
        exact foldInserts_alookup_mem cfgs cfg hm' hg.1 D cd
      have h2 : (applyEach Dw cfgs).map (writeAll cfgs) = Dw := by
        rw [hX2, List.map_map, hDw]
        apply List.map_congr_left
        intro dd hdd
        exact (hchildfacts dd hdd).2
      rw [h1, h2]

/-- C3 counterexample: with a `MultiplyByFactor` column whose source is
itself (`a = 2 × a`), a second pass doubles the value again: after one pass
the parent stores `a = 2`, after two passes `a = 4`.  Recompute is not
idempotent for every tree and schema. -/
theorem c3_idempotent_cex :
    ((update exSelfRoot exSelfCfgs).bind (fun t => update t exSelfCfgs)).map
        (fun t => lookupD t.col_data "a") ≠
      (update exSelfRoot exSelfCfgs).map (fun t => lookupD t.col_data "a") := by
  have h1 : (update exSelfRoot exSelfCfgs).map (fun t => lookupD t.col_data "a") =
      some 2 := by
    simp [update, updateEach, updateCols, colPass, stepChild, exSelfRoot, exSelfCfgs,
      lookupD, alookup, insertA]
  have h2 : ((update exSelfRoot exSelfCfgs).bind (fun t => update t exSelfCfgs)).map
      (fun t => lookupD t.col_data "a") = some 4 := by
    simp [update, updateEach, updateCols, colPass, stepChild, exSelfRoot, exSelfCfgs,
      lookupD, alookup, insertA]
    norm_num
  rw [h1, h2]
  intro hcontra
  have : (4 : ℚ) = 2 := by injection hcontra
  norm_num at this

/-- C3 (amended): the recompute pass is idempotent for every tree whose
per-row mappings have no duplicate keys (always true of the source's
`HashMap`) and every well-formed schema — distinct column ids, and no
`MultiplyByFactor` column whose source is itself a `MultiplyByFactor` column
(the engine reads whatever is currently stored for the source, so
self-referencing or chained scaled columns may keep changing between
passes). -/
theorem c3_idempotent (r r1 : RowData) (cfgs : List ColumnConfig)
    (hg : goodCfgs cfgs) (hwf : nodupKeys r)
    (hup : update r cfgs = some r1) : update r1 cfgs = some r1 := by
  by_cases hch : r.children = []
  · rw [update_leaf r cfgs hch] at hup
    have heq : r = r1 := by injection hup
    subst heq
    exact update_leaf r cfgs hch
  · cases hrs : hasRowSum cfgs
    · rw [update_eq_applyUpdate cfgs hrs r] at hup
      have heq : applyUpdate r cfgs = r1 := by injection hup
      subst heq
      rw [update_eq_applyUpdate cfgs hrs, applyUpdate_idem cfgs hg r hwf]
    · exfalso
      rw [(update_none_iff r cfgs).mpr ⟨hch, hrs⟩] at hup
      cases hup

/-- Witness for the amended C3: the spec's concrete scenario is a fixed point
of the pass after one pass. -/
theorem c3_idempotent_w : update exSpecOut exSpecCfgs = some exSpecOut := by
  have hup : update exSpecRoot exSpecCfgs = some exSpecOut := by
    simp [update, updateEach, updateCols, colPass, stepChild, exSpecRoot, exSpecCfgs,
      exSpecOut, lookupD, alookup, insertA]
  have hg : goodCfgs exSpecCfgs := by
    constructor
    · simp [exSpecCfgs]
    · intro cfg hmem src f hty
      simp only [exSpecCfgs, List.mem_cons, List.not_mem_nil, or_false] at hmem
      rcases hmem with rfl | rfl
      · cases hty
      · have hsrc : src = "s" := by
          injection hty with h1 h2
          exact h1.symm
        subst hsrc
        simp [mbfIds, exSpecCfgs, isMulti, List.filter_cons]
  have hwf : nodupKeys exSpecRoot := by
    simp [exSpecRoot, nodupKeys, nodupKeysEach]
  exact c3_idempotent exSpecRoot exSpecOut exSpecCfgs hg hwf hup

/-! ### Persistence round-trip -/

theorem ids_roundtrip (l : List ColumnID) :
    idsFromList (l.map Json.str) = some l := by
  induction l with
  | nil => rfl
  | cons s rest ih =>
    rw [List.map_cons, idsFromList, ih]

theorem colType_roundtrip (ct : ColumnType) :
    colTypeFromJson (ColumnType.toJson ct) = some ct := by
  cases ct with
  | Number => rfl
  | Text => rfl
  | MultiplyByFactor src f => simp [ColumnType.toJson, colTypeFromJson]
  | RowSum ids => simp [ColumnType.toJson, colTypeFromJson, ids_roundtrip]

theorem cfg_roundtrip (cfg : ColumnConfig) (freshId : ColumnID) :
    ColumnConfig.fromJson freshId (ColumnConfig.toJson cfg) = some cfg := by
  obtain ⟨i, cap, u, ct⟩ := cfg
  simp [ColumnConfig.fromJson, ColumnConfig.toJson, alookup_cons, colType_roundtrip]

theorem cfgs_roundtrip (l : List ColumnConfig) (freshId : ColumnID) :
    cfgsFromList freshId (l.map ColumnConfig.toJson) = some l := by
  induction l with
  | nil => rfl
  | cons cfg rest ih =>
    rw [List.map_cons, cfgsFromList, cfg_roundtrip cfg freshId, ih]

theorem colData_roundtrip (m : ColData) :
    colDataFromJson (colDataToJson m) = some m := by
  induction m with
  | nil => rfl
  | cons p rest ih =>
    obtain ⟨k, q⟩ := p
    rw [colDataToJson, List.map_cons]
    rw [show colDataFromJson ((k, Json.num q) ::
      rest.map (fun p => (p.1, Json.num p.2))) =
        match colDataFromJson (rest.map (fun p => (p.1, Json.num p.2))) with
        | none => none
        | some m0 => some ((k, q) :: m0) from rfl]
    rw [colDataToJson] at ih
    rw [ih]

theorem row_roundtrip : ∀ r : RowData, rowFromJson (rowToJson r) = some r := by
  apply RowData.inductionOn (fun r => rowFromJson (rowToJson r) = some r)
  intro n cd ch en ex ed hih
  have hlist : rowsFromList (rowsToJson ch) = some ch := by
    induction ch with
    | nil => rw [rowsToJson, rowsFromList]
    | cons c cs ihc =>
      rw [rowsToJson, rowsFromList, hih c (by simp),
        ihc (fun x hx => hih x (by simp [hx]))]
  rw [rowToJson, rowFromJson]
  simp [rowFromFields, rowsFromJson, jStr, jBool, jColData, colData_roundtrip, hlist]

/-- C6: serialization round-trips — deserializing the serialized form of any
document gives the document back, with the title, the schema list (order and
content) and the full row tree (including every `enabled` flag) equal. -/
theorem c6_roundtrip (t : TreeTable) (freshId : ColumnID) :
    TreeTable.fromJson freshId (TreeTable.toJson t) = some t := by
  obtain ⟨title, cfgs, root⟩ := t
  simp [TreeTable.toJson, TreeTable.fromJson, alookup_cons, cfgs_roundtrip,
    row_roundtrip]

/-! ### Defaulting on partial input -/

theorem rowFromFields_enabled :
    ∀ (fields : List (String × Json)), "enabled" ∉ fields.map Prod.fst →
    ∀ (n : Option String) (cd : Option ColData) (ch : Option (List RowData))
      (en ex ed : Option Bool) (r : RowData),
      rowFromFields fields n cd ch en ex ed = some r → r.enabled = en.getD true := by
  intro fields
  induction fields with
  | nil =>
    intro _ n cd ch en ex ed r hsome
    rw [rowFromFields] at hsome
    injection hsome with h
    subst h
    simp
  | cons p rest ih =>
    obtain ⟨k, v⟩ := p
    intro hmem n cd ch en ex ed r hsome
    simp only [List.map_cons, List.mem_cons] at hmem
    push_neg at hmem
    obtain ⟨hkne, hmem'⟩ := hmem
    rw [rowFromFields] at hsome
    by_cases h1 : k = "name"
    · rw [if_pos h1] at hsome
      cases hv : jStr v with
      | none => rw [hv] at hsome; exact Option.noConfusion hsome
      | some s => rw [hv] at hsome; exact ih hmem' _ _ _ _ _ _ r hsome
    · rw [if_neg h1] at hsome
      by_cases h2 : k = "col_data"
      · rw [if_pos h2] at hsome
        cases hv : jColData v with
        | none => rw [hv] at hsome; exact Option.noConfusion hsome
        | some m => rw [hv] at hsome; exact ih hmem' _ _ _ _ _ _ r hsome
      · rw [if_neg h2] at hsome
        by_cases h3 : k = "children"
        · rw [if_pos h3] at hsome
          cases hres : rowsFromJson v with
          | none => rw [hres] at hsome; exact Option.noConfusion hsome
          | some cs => rw [hres] at hsome; exact ih hmem' _ _ _ _ _ _ r hsome
        · rw [if_neg h3] at hsome
          by_cases h4 : k = "enabled"
          · exact absurd h4.symm hkne
          · rw [if_neg h4] at hsome
            by_cases h5 : k = "expanded"
            · rw [if_pos h5] at hsome
              cases hv : jBool v with
              | none => rw [hv] at hsome; exact Option.noConfusion hsome
              | some b => rw [hv] at hsome; exact ih hmem' _ _ _ _ _ _ r hsome
            · rw [if_neg h5] at hsome
              by_cases h6 : k = "edit_name"
              · rw [if_pos h6] at hsome
                cases hv : jBool v with
                | none => rw [hv] at hsome; exact Option.noConfusion hsome
                | some b => rw [hv] at hsome; exact ih hmem' _ _ _ _ _ _ r hsome
              · rw [if_neg h6] at hsome
                exact ih hmem' _ _ _ _ _ _ r hsome

/-- C7 counterexample: a document payload with no `column_configs` field is
rejected by deserialization (`TreeTable` has no `#[serde(default)]`), not
parsed with an empty schema. -/
theorem c7_missing_cfgs_cex :
    TreeTable.fromJson "fresh" exNoCfgsJson = none := rfl

/-- C7 (amended): `RowData`'s fields default on absence — a row payload with
no `enabled` field parses with `enabled = true` — but a document payload's
three fields are required: any payload with no `column_configs` field is
rejected by deserialization, not defaulted to an empty schema. -/
theorem c7_defaults :
    (∀ (fields : List (String × Json)), "enabled" ∉ fields.map Prod.fst →
      ∀ r, rowFromJson (Json.obj fields) = some r → r.enabled = true) ∧
    (∀ (freshId : ColumnID) (fields : List (String × Json)),
      "column_configs" ∉ fields.map Prod.fst →
      TreeTable.fromJson freshId (Json.obj fields) = none) := by
  constructor
  · intro fields h r hsome
    rw [rowFromJson] at hsome
    exact rowFromFields_enabled fields h none none none none none none r hsome
  · intro freshId fields h
    have hnone : alookup fields "column_configs" = none :=
      (alookup_eq_none fields "column_configs").mpr h
    rw [TreeTable.fromJson, hnone]
    cases h1 : alookup fields "title_text" with
    | none => rfl
    | some j => cases j <;> rfl

/-- Witness for the amended C7: a row payload carrying only a name parses
with `enabled = true`. -/
theorem c7_defaults_w : (RowData.mk "x" [] [] true true false).enabled = true :=
  c7_defaults.1 [("name", Json.str "x")] (by simp)
    (RowData.mk "x" [] [] true true false)
    (by rw [rowFromJson]; simp [rowFromFields, jStr])

end TreeTables
